import Mathlib

/-!
Verification of the deterministic parallel transaction executor found in
diem-move/parallel-executor/src/executor.rs.

The executor module itself (the worker-loop body, MVHashMapView, the
thread-count computation, the top-level driver) is embedded directly from
that source file.  Collaborators that live in sibling crates and are not
part of the embedded sources (the mvhashmap crate, scheduler.rs,
outcome_array.rs, errors.rs, task.rs) are modelled from the specification;
each such definition says so in its doc comment.

Concurrency is embedded by quantifying over schedules: a schedule is the
sequence in which whole transaction attempts take effect.  MVHashMap cells
are single-writer and write-once, so a read that returns a resolved value
returns the same value under any finer interleaving; hence every
interleaving produced by any worker count and any re-queue order is
observationally one of these schedules, and theorems quantified over all
schedules cover all worker counts and re-queue orders.
-/

namespace ParallelExec

/-- Modelled from the spec: the execution status returned by the VM for one
transaction.  task.rs is not part of the embedded sources; see the
ExecutorTask contract in the spec (Success, SkipRest, Abort). -/
inductive ExecutionStatus (Out Err : Type) where
  | Success : Out → ExecutionStatus Out Err
  | SkipRest : Out → ExecutionStatus Out Err
  | Abort : Err → ExecutionStatus Out Err
deriving DecidableEq

/-- Modelled from the spec: the block-level error type.  errors.rs is not
part of the embedded sources; the spec lists the errors of execute_block as
InferencerError, UnestimatedWrite and UserError(e). -/
inductive Error (Err : Type) where
  | UserError : Err → Error Err
  | InferencerError : Error Err
  | UnestimatedWrite : Error Err
deriving DecidableEq

/-- Modelled from the spec: the state of one MVHashMap cell, which is one of
Unset (placeholder reserved during priming), Skipped (owner executed but did
not write the key) or Value. -/
inductive Cell (V : Type) where
  | Unset : Cell V
  | Skipped : Cell V
  | Value : V → Cell V
deriving DecidableEq

/-- Modelled from the spec: the multi-version map.  The mvhashmap crate is
not part of the embedded sources.  For each key it stores an append-free
mapping from writer version to cell, created once during priming. -/
structure MVHashMap (K V : Type) where
  cells : K → Nat → Option (Cell V)

variable {K V Out Err : Type}

/-- Modelled from the spec: the downward scan of a versioned read.  Starting
just below the reader version it skips Skipped cells and absent cells,
returns the value of the nearest Value cell, and reports the owner of the
nearest Unset cell as an unresolved dependency. -/
def MVHashMap.read_from (m : MVHashMap K V) (key : K) : Nat → Except (Option Nat) V
  | 0 => .error none
  | u + 1 =>
    match m.cells key u with
    | none => m.read_from key u
    | some .Skipped => m.read_from key u
    | some .Unset => .error (some u)
    | some (.Value x) => .ok x

/-- Modelled from the spec: read(key, reader_version).  Ok is a resolved
value, error none means no earlier writer, error (some dep) means the
reader must wait for version dep. -/
def MVHashMap.read (m : MVHashMap K V) (key : K) (version : Nat) : Except (Option Nat) V :=
  m.read_from key version

/-- Modelled from the spec: write(key, version, value) requires a cell primed
at (key, version); if the cell is absent the write is an unestimated write
and fails, otherwise the cell becomes Value value. -/
def MVHashMap.write [DecidableEq K] (m : MVHashMap K V) (key : K) (version : Nat)
    (value : V) : Except Unit (MVHashMap K V) :=
  match m.cells key version with
  | none => .error ()
  | some _ =>
    .ok ⟨fun k u => if k = key ∧ u = version then some (.Value value) else m.cells k u⟩

/-- Modelled from the spec: skip_if_not_set(key, version) turns an Unset cell
at (key, version) into Skipped and leaves any other cell unchanged. -/
def MVHashMap.skip_if_not_set [DecidableEq K] (m : MVHashMap K V) (key : K)
    (version : Nat) : MVHashMap K V :=
  match m.cells key version with
  | some .Unset => ⟨fun k u => if k = key ∧ u = version then some .Skipped else m.cells k u⟩
  | _ => m

/-- Modelled from the spec: the predicted writer versions of one key among
the primed (key, version) pairs, counted without duplicates. -/
def writers_of [DecidableEq K] (pairs : List (K × Nat)) (key : K) : List Nat :=
  ((pairs.filter (fun p => p.1 = key)).map Prod.snd).dedup

/-- Modelled from the spec: the maximum dependency level measured while
priming, the largest count of predicted writers to a single key. -/
def max_dependency_level [DecidableEq K] (pairs : List (K × Nat)) : Nat :=
  (pairs.map (fun p => (writers_of pairs p.1).length)).foldr max 0

/-- Modelled from the spec: new_from_parallel primes one Unset cell for every
(key, version) pair and also returns the maximum dependency level. -/
def MVHashMap.new_from_parallel [DecidableEq K] (pairs : List (K × Nat)) :
    MVHashMap K V × Nat :=
  (⟨fun k u => if (k, u) ∈ pairs then some Cell.Unset else none⟩,
   max_dependency_level pairs)

/-- Modelled from the spec: the per-version scheduler status. -/
inductive TxnStatus where
  | Pending : TxnStatus
  | InProgress : TxnStatus
  | Executed : TxnStatus
deriving DecidableEq

/-- Modelled from the spec: the scheduler state.  scheduler.rs is not part of
the embedded sources.  It owns the execution cursor, the ready queue, the
stop-version watermark and the per-version dependency lists. -/
structure Scheduler where
  num_txns : Nat
  next_to_execute : Nat
  stop_version : Nat
  ready_queue : List Nat
  dep_lists : Nat → List Nat
  status : Nat → TxnStatus

/-- Modelled from the spec: a fresh scheduler for a block of n transactions. -/
def Scheduler.new (n : Nat) : Scheduler :=
  ⟨n, 0, n, [], fun _ => [], fun _ => .Pending⟩

/-- Modelled from the spec: push a version onto the ready queue. -/
def Scheduler.add_transaction (s : Scheduler) (v : Nat) : Scheduler :=
  { s with ready_queue := v :: s.ready_queue }

/-- Modelled from the spec: add_dependency(waiter, producer) returns false and
changes nothing when the producer is already Executed, otherwise it appends
the waiter to the producer's dependency list and returns true. -/
def Scheduler.add_dependency (s : Scheduler) (waiter producer : Nat) : Bool × Scheduler :=
  match s.status producer with
  | .Executed => (false, s)
  | _ =>
    (true,
     { s with dep_lists := fun p => if p = producer then waiter :: s.dep_lists p else s.dep_lists p })

/-- Modelled from the spec: next_txn_to_execute prefers a re-queued version
and otherwise advances the cursor while it is below the stop version. -/
def Scheduler.next_txn_to_execute (s : Scheduler) : Option (Nat × Scheduler) :=
  match s.ready_queue with
  | v :: rest => some (v, { s with ready_queue := rest })
  | [] =>
    if s.next_to_execute < s.stop_version then
      some (s.next_to_execute,
        { s with
          next_to_execute := s.next_to_execute + 1,
          status := fun u => if u = s.next_to_execute then .InProgress else s.status u })
    else none

/-- Modelled from the spec: finish_execution marks the version Executed and
drains its dependency list into the ready queue. -/
def Scheduler.finish_execution (s : Scheduler) (v : Nat) : Scheduler :=
  { s with
    status := fun u => if u = v then .Executed else s.status u,
    ready_queue := s.dep_lists v ++ s.ready_queue,
    dep_lists := fun p => if p = v then [] else s.dep_lists p }

/-- Modelled from the spec: set_stop_version atomically lowers the stop
version to the minimum of the current value and the argument. -/
def Scheduler.set_stop_version (s : Scheduler) (v : Nat) : Scheduler :=
  { s with stop_version := min s.stop_version v }

/-- Modelled from the spec: num_txn_to_execute returns the final stop
version, the count of valid results. -/
def Scheduler.num_txn_to_execute (s : Scheduler) : Nat := s.stop_version

/-- Embedded from executor.rs: the per-attempt read-through view.  It holds
the multi-version map, the reader version, the scheduler and the
has_unexpected_read flag. -/
structure MVHashMapView (K V : Type) where
  map : MVHashMap K V
  version : Nat
  scheduler : Scheduler
  has_unexpected_read : Bool

/-- Embedded from executor.rs (MVHashMapView::read): a resolved read returns
the value, an absent writer returns none, and an unresolved dependency calls
add_dependency, re-queues the reader when the producer is already executed,
sets has_unexpected_read and returns an error to the VM. -/
def MVHashMapView.read [DecidableEq K] (view : MVHashMapView K V) (key : K) :
    Except Unit (Option V) × MVHashMapView K V :=
  match view.map.read key view.version with
  | .ok x => (.ok (some x), view)
  | .error none => (.ok none, view)
  | .error (some dep_idx) =>
    let r := view.scheduler.add_dependency view.version dep_idx
    let s2 := if r.1 then r.2 else r.2.add_transaction view.version
    (.error (), { view with scheduler := s2, has_unexpected_read := true })

/-- Modelled from the spec: the read/write set produced by the inferencer for
one transaction. -/
structure Accesses (K : Type) where
  keys_read : List K
  keys_written : List K

/-- Modelled from the spec: the ExecutorTask contract.  The VM is a black box
that, given the values obtained for the keys it reads through the view,
returns Success, SkipRest or Abort; its output exposes its writes through a
separate get_writes function. -/
structure Txn (K V Out Err : Type) where
  reads : List K
  run : List (Option V) → ExecutionStatus Out Err

/-- Embedded from executor.rs: the inferencer is applied to every transaction
and any failure aborts the block; this models the collect over the parallel
iterator. -/
def infer_all (infer : Txn K V Out Err → Option (Accesses K)) :
    List (Txn K V Out Err) → Option (List (Accesses K))
  | [] => some []
  | t :: rest =>
    match infer t, infer_all infer rest with
    | some a, some as_ => some (a :: as_)
    | _, _ => none

/-- Embedded from executor.rs: flatten the predicted write sets into
(key, version) pairs used to prime the multi-version map. -/
def path_version_tuples (acc : List (Accesses K)) : List (K × Nat) :=
  (acc.enum.map (fun p => p.2.keys_written.map (fun k => (k, p.1)))).flatten

/-- Embedded from executor.rs: the worker-thread count,
min(num_txns / max_dependency_level, min(1 + num_txns / 50, num_cpus)). -/
def compute_cpus (num_cpus num_txns max_dep : Nat) : Nat :=
  min (num_txns / max_dep) (min (1 + num_txns / 50) num_cpus)

/-- Embedded from executor.rs: the per-slot result records the user error of
an Abort as Error.UserError while Success and SkipRest outputs pass through. -/
def lift_status : ExecutionStatus Out Err → ExecutionStatus Out (Error Err)
  | .Success o => .Success o
  | .SkipRest o => .SkipRest o
  | .Abort e => .Abort (.UserError e)

/-- Embedded from executor.rs: the reads a VM attempt performs through the
view, in order.  The first unresolved dependency aborts the attempt with the
producer version, which is what sets has_unexpected_read. -/
def view_reads (m : MVHashMap K V) (version : Nat) : List K → Except Nat (List (Option V))
  | [] => .ok []
  | k :: rest =>
    match m.read k version with
    | .ok x =>
      match view_reads m version rest with
      | .ok vs => .ok (some x :: vs)
      | .error d => .error d
    | .error none =>
      match view_reads m version rest with
      | .ok vs => .ok (none :: vs)
      | .error d => .error d
    | .error (some dep) => .error dep

/-- Embedded from executor.rs: committing the writes of one transaction in
order; the iteration stops at the first write whose cell is missing
(an unestimated write) and earlier writes stay committed. -/
def commit_writes [DecidableEq K] (m : MVHashMap K V) (version : Nat) :
    List (K × V) → MVHashMap K V × Bool
  | [] => (m, true)
  | (k, x) :: rest =>
    match m.write k version x with
    | .ok m1 => commit_writes m1 version rest
    | .error _ => (m, false)

/-- Embedded from executor.rs: after the commit, skip_if_not_set is applied
to every predicted write key of the version. -/
def skip_writes [DecidableEq K] (m : MVHashMap K V) (version : Nat) (keys : List K) :
    MVHashMap K V :=
  keys.foldl (fun acc k => acc.skip_if_not_set k version) m

/-- The shared state the worker loop mutates: the multi-version map, the stop
version, the set of versions whose finish_execution ran, and the outcome
array (a write-once slot per version). -/
structure LoopState (K V Out Err : Type) where
  map : MVHashMap K V
  stop_version : Nat
  executed : List Nat
  outcomes : Nat → Option (ExecutionStatus Out (Error Err))

/-- Write one outcome slot. -/
def set_outcome (f : Nat → Option (ExecutionStatus Out (Error Err))) (v : Nat)
    (r : ExecutionStatus Out (Error Err)) : Nat → Option (ExecutionStatus Out (Error Err)) :=
  fun u => if u = v then some r else f u

section Driver

variable [DecidableEq K]
variable (gw : Out → List (K × V)) (txns : List (Txn K V Out Err)) (acc : List (Accesses K))

/-- Embedded from executor.rs: the commit phase of one iteration, the match
on the VM result.  Success commits the writes, a failed commit turning the
outcome into Abort UnestimatedWrite; SkipRest additionally lowers the stop
version to v + 1 on a successful commit; Abort lowers the stop version and
records the user error.  The result is the updated map, the updated stop
version and the value for the outcome slot. -/
def apply_status (m : MVHashMap K V) (stop v : Nat) :
    ExecutionStatus Out Err → MVHashMap K V × Nat × ExecutionStatus Out (Error Err)
  | .Success out =>
    let c := commit_writes m v (gw out)
    (c.1, stop, if c.2 then .Success out else .Abort .UnestimatedWrite)
  | .SkipRest out =>
    let c := commit_writes m v (gw out)
    if c.2 then (c.1, min stop (v + 1), .SkipRest out)
    else (c.1, stop, .Abort .UnestimatedWrite)
  | .Abort e => (m, min stop (v + 1), .Abort (.UserError e))

/-- Embedded from executor.rs: one worker-loop iteration for version v.  If
some read finds an unresolved dependency the attempt has an unexpected read
and changes nothing here (the version is re-queued through the scheduler).
Otherwise the commit phase runs on the VM result, every predicted write cell
is closed with skip_if_not_set, the version is marked finished and its
outcome slot is written.  A version never runs two committing attempts, so
an attempt at a finished version is a no-op. -/
def attempt (σ : LoopState K V Out Err) (v : Nat) : LoopState K V Out Err :=
  match txns[v]?, acc[v]? with
  | some t, some a =>
    if v ∈ σ.executed then σ
    else
      match view_reads σ.map v t.reads with
      | .error _ => σ
      | .ok vals =>
        let r := apply_status gw σ.map σ.stop_version v (t.run vals)
        { map := skip_writes r.1 v a.keys_written
          stop_version := r.2.1
          executed := v :: σ.executed
          outcomes := set_outcome σ.outcomes v r.2.2 }
  | _, _ => σ

/-- Fold the worker-loop iterations over a schedule. -/
def run_schedule (σ : LoopState K V Out Err) : List Nat → LoopState K V Out Err
  | [] => σ
  | v :: rest => run_schedule (attempt gw txns acc σ v) rest

/-- The shared state before any worker runs: the primed map, stop version at
the block length, nothing executed, all outcome slots empty. -/
def init_state (m : MVHashMap K V) : LoopState K V Out Err :=
  { map := m, stop_version := txns.length, executed := [], outcomes := fun _ => none }

/-- A finished run: every version below the final stop version was executed,
which is what holds when next_txn_to_execute returns none for all workers. -/
def Complete (σ : LoopState K V Out Err) : Prop :=
  ∀ v, v < σ.stop_version → v ∈ σ.executed

/-- Modelled from the spec: the conservative over-approximation contract of
the inferencer, i.e. for every transaction the writes of any of its possible
outputs lie inside its predicted write set. -/
def InferCorrect : Prop :=
  ∀ (v : Nat) (t : Txn K V Out Err) (a : Accesses K), txns[v]? = some t → acc[v]? = some a →
    ∀ vals out, (t.run vals = .Success out ∨ t.run vals = .SkipRest out) →
      ∀ kv ∈ gw out, kv.1 ∈ a.keys_written

/-- A key is predicted for a version when it is in that version's inferred
write set. -/
def predicted_key (key : K) (v : Nat) : Prop :=
  ∃ a, acc[v]? = some a ∧ key ∈ a.keys_written

end Driver

/-- Modelled from the spec: draining the outcome array turns the first Abort
into the block error and otherwise collects the Success and SkipRest outputs
in version order. -/
def extract_outputs : List (ExecutionStatus Out (Error Err)) → Except (Error Err) (List Out)
  | [] => .ok []
  | .Success o :: rest =>
    match extract_outputs rest with
    | .ok os => .ok (o :: os)
    | .error e => .error e
  | .SkipRest o :: rest =>
    match extract_outputs rest with
    | .ok os => .ok (o :: os)
    | .error e => .error e
  | .Abort e :: _ => .error e

/-- Modelled from the spec: the slots i, i+1, ..., i+n-1 of the outcome
array, provided every one of them was written. -/
def collect_from (out : Nat → Option (ExecutionStatus Out (Error Err))) (i : Nat) :
    Nat → Option (List (ExecutionStatus Out (Error Err)))
  | 0 => some []
  | n + 1 =>
    match out i, collect_from out (i + 1) n with
    | some b, some l => some (b :: l)
    | _, _ => none

/-- Modelled from the spec: get_all_results(k) reads the first k slots in
sequence (an unwritten slot is an invariant violation, modelled as none) and
produces the block result. -/
def get_all_results (out : Nat → Option (ExecutionStatus Out (Error Err))) (k : Nat) :
    Option (Except (Error Err) (List Out)) :=
  (collect_from out 0 k).map extract_outputs

/-- Embedded from executor.rs: execute_transactions_parallel.  The empty
block returns Ok [] at once; a failed inferencer or a zero maximum
dependency level returns InferencerError; otherwise the primed map is run by
the workers, abstracted as a schedule of attempts, and the outcome array is
drained up to num_txn_to_execute, the final stop version. -/
def execute_transactions_parallel [DecidableEq K]
    (infer : Txn K V Out Err → Option (Accesses K)) (gw : Out → List (K × V))
    (txns : List (Txn K V Out Err)) (schedule : List Nat) :
    Option (Except (Error Err) (List Out)) :=
  if txns.isEmpty then some (.ok []) else
    match infer_all infer txns with
    | none => some (.error .InferencerError)
    | some acc =>
      let pr := MVHashMap.new_from_parallel (V := V) (path_version_tuples acc)
      if pr.2 = 0 then some (.error .InferencerError)
      else
        let σf := run_schedule gw txns acc (init_state txns pr.1) schedule
        get_all_results σf.outcomes σf.stop_version

section Sequential

variable [DecidableEq K]
variable (gw : Out → List (K × V)) (txns : List (Txn K V Out Err))

/-- Apply a list of writes to a sequential key-value state in order; a later
write to the same key overwrites an earlier one, as in commit_writes. -/
def apply_writes (st : K → Option V) : List (K × V) → (K → Option V)
  | [] => st
  | (k, x) :: rest => apply_writes (fun q => if q = k then some x else st q) rest

/-- The last value a write list assigns to a key, if any. -/
def last_write : List (K × V) → K → Option V
  | [], _ => none
  | (k, x) :: rest, key =>
    match last_write rest key with
    | some y => some y
    | none => if key = k then some x else none

/-- The strictly sequential execution of the block from a given state: each
transaction reads the current state, Success commits its writes and
continues, SkipRest commits its writes and stops, Abort stops without
writing. -/
def execute_sequential (st : K → Option V) :
    List (Txn K V Out Err) → List (ExecutionStatus Out Err)
  | [] => []
  | t :: rest =>
    match t.run (t.reads.map st) with
    | .Success out => .Success out :: execute_sequential (apply_writes st (gw out)) rest
    | .SkipRest out => [.SkipRest out]
    | .Abort e => [.Abort e]

/-- The sequential state just before version v, composing the writes of all
earlier versions (an aborting version writes nothing).  This ignores
truncation, so it is defined at every version; versions past the sequential
stop never influence the retained prefix. -/
def seq_state : Nat → (K → Option V)
  | 0 => fun _ => none
  | v + 1 =>
    apply_writes (seq_state v)
      (match txns[v]? with
       | none => []
       | some t =>
         match t.run (t.reads.map (seq_state v)) with
         | .Success out => gw out
         | .SkipRest out => gw out
         | .Abort _ => [])

/-- The writes version v performs in the sequential execution. -/
def seq_writes (v : Nat) : List (K × V) :=
  match txns[v]? with
  | none => []
  | some t =>
    match t.run (t.reads.map (seq_state gw txns v)) with
    | .Success out => gw out
    | .SkipRest out => gw out
    | .Abort _ => []

/-- The status version v has in the sequential execution. -/
def seq_status (v : Nat) : Option (ExecutionStatus Out Err) :=
  (txns[v]?).map (fun t => t.run (t.reads.map (seq_state gw txns v)))

/-- Whether a status stops the block (SkipRest or Abort lower the stop
version to v + 1). -/
def is_stopping : Option (ExecutionStatus Out Err) → Bool
  | some (.SkipRest _) => true
  | some (.Abort _) => true
  | _ => false

/-- The sequential stop version, scanning n versions upward from v: the
first stopping version plus one, else v + n. -/
def seq_stop_from : Nat → Nat → Nat
  | v, 0 => v
  | v, n + 1 =>
    if is_stopping (seq_status gw txns v) then v + 1 else seq_stop_from (v + 1) n

/-- The sequential stop version of the whole block. -/
def seq_stop : Nat := seq_stop_from gw txns 0 txns.length

/-- The stop version determined by a set of finished versions: the least
v + 1 over finished stopping versions, else the block length. -/
def stop_of (ex : List Nat) : Nat :=
  ex.foldr (fun v r => if is_stopping (seq_status gw txns v) then min (v + 1) r else r)
    txns.length

end Sequential

/-- The cell a finished version leaves at a key: Value of its last sequential
write to the key, Skipped when it does not write the key. -/
def cell_of_seq [DecidableEq K] (gw : Out → List (K × V)) (txns : List (Txn K V Out Err))
    (key : K) (v : Nat) : Cell V :=
  match last_write (seq_writes gw txns v) key with
  | some x => .Value x
  | none => .Skipped

/-- The primed-domain invariant: a cell is absent exactly when its key was
never predicted for its version.  Commits and skips preserve it because they
never create or delete cells. -/
def CellDom [DecidableEq K] (acc : List (Accesses K)) (σ : LoopState K V Out Err) : Prop :=
  ∀ key v, σ.map.cells key v = none ↔ ¬ predicted_key acc key v

/-- The run invariant tying a reachable worker-loop state to the sequential
execution: finished versions carry their sequential outcome and have fully
resolved cells matching their sequential writes, unfinished versions have
empty slots and Unset cells, and the stop version is the least v + 1 over
finished stopping versions. -/
structure Inv [DecidableEq K] (gw : Out → List (K × V)) (txns : List (Txn K V Out Err))
    (acc : List (Accesses K)) (σ : LoopState K V Out Err) : Prop where
  len_eq : acc.length = txns.length
  exec_lt : ∀ v ∈ σ.executed, v < txns.length
  exec_nodup : σ.executed.Nodup
  outcome_exec : ∀ v ∈ σ.executed, σ.outcomes v = (seq_status gw txns v).map lift_status
  outcome_unexec : ∀ v, v ∉ σ.executed → σ.outcomes v = none
  cell_none : ∀ key v, σ.map.cells key v = none ↔ ¬ predicted_key acc key v
  cell_exec : ∀ key v, v ∈ σ.executed →
    σ.map.cells key v = none ∨ σ.map.cells key v = some (cell_of_seq gw txns key v)
  cell_unexec : ∀ key v, v ∉ σ.executed →
    σ.map.cells key v = none ∨ σ.map.cells key v = some .Unset
  stop_eq : σ.stop_version = stop_of gw txns σ.executed

/-- A one-read transaction over the Nat universe, used in concrete runs: it
returns 100 plus the value read (0 when absent). -/
def txn_read_zero : Txn Nat Nat Nat Nat :=
  ⟨[0], fun vs => .Success (100 + ((vs.headD none).getD 0))⟩

/-- A transaction with fixed reads and a fixed status, used in concrete
runs. -/
def txn_const (reads : List Nat) (s : ExecutionStatus Nat Nat) : Txn Nat Nat Nat Nat :=
  ⟨reads, fun _ => s⟩

/-- A write function over the Nat universe: output 10 writes 99 to key 0 and
every other output writes nothing. -/
def gw_ten : Nat → List (Nat × Nat) := fun o => if o = 10 then [(0, 99)] else []

/-- A write function over the Nat universe: output 5 writes 5 to key 1 and
every other output writes nothing. -/
def gw_five : Nat → List (Nat × Nat) := fun o => if o = 5 then [(1, 5)] else []

/-- A write function that writes nothing. -/
def gw_none : Nat → List (Nat × Nat) := fun _ => []

/-- An inferencer over the Nat universe predicting a write to key 0 for
every transaction. -/
def infer_zero : Txn Nat Nat Nat Nat → Option (Accesses Nat) := fun _ => some ⟨[], [0]⟩

/-- An inferencer predicting a write to key 0 for transactions without reads
and nothing for the others. -/
def infer_roots : Txn Nat Nat Nat Nat → Option (Accesses Nat) :=
  fun t => some ⟨[], if t.reads.isEmpty then [0] else []⟩

/-- An inferencer that always fails. -/
def infer_fail : Txn Nat Nat Nat Nat → Option (Accesses Nat) := fun _ => none

/-- A concrete map with a single Unset cell at key 0, version 0. -/
def wmap0 : MVHashMap Nat Nat := ⟨fun k u => if k = 0 ∧ u = 0 then some .Unset else none⟩

/-- A concrete view for version 1 over wmap0 with a fresh scheduler. -/
def wview0 : MVHashMapView Nat Nat := ⟨wmap0, 1, Scheduler.new 2, false⟩

/-- A one-transaction block whose transaction aborts with user error 7. -/
def wtxns_abort : List (Txn Nat Nat Nat Nat) := [txn_const [] (.Abort 7)]

/-- A one-transaction block whose transaction succeeds with output 5. -/
def wtxns_five : List (Txn Nat Nat Nat Nat) := [txn_const [] (.Success 5)]

/-- A two-transaction block: a root writer and a reader of key 0. -/
def wtxns_chain : List (Txn Nat Nat Nat Nat) := [txn_const [] (.Success 10), txn_read_zero]

/-- Inferred accesses for a one-transaction block writing key 0. -/
def wacc_one : List (Accesses Nat) := [⟨[], [0]⟩]

/-- Inferred accesses for the two-transaction chain block. -/
def wacc_chain : List (Accesses Nat) := [⟨[], [0]⟩, ⟨[0], []⟩]

/-- The accesses infer_roots produces for the chain block. -/
def wacc_roots : List (Accesses Nat) := [⟨[], [0]⟩, ⟨[], []⟩]

/-- A one-transaction block whose transaction returns SkipRest 20. -/
def wtxns_skip1 : List (Txn Nat Nat Nat Nat) := [txn_const [] (.SkipRest 20)]

/-- The initial loop state for a concrete Nat-universe block. -/
def wstate (txns : List (Txn Nat Nat Nat Nat)) (acc : List (Accesses Nat)) :
    LoopState Nat Nat Nat Nat :=
  init_state txns (MVHashMap.new_from_parallel (V := Nat) (path_version_tuples acc)).1

/-- A two-transaction block: version 0 aborts with user error 7 and version 1
succeeds with output 5 (whose writes hit the unpredicted key 1). -/
def wtxns_mask : List (Txn Nat Nat Nat Nat) :=
  [txn_const [] (.Abort 7), txn_const [] (.Success 5)]

/-- A two-transaction block where both versions return SkipRest. -/
def wtxns_skip2 : List (Txn Nat Nat Nat Nat) :=
  [txn_const [] (.SkipRest 20), txn_const [] (.SkipRest 21)]

/-- Inferred accesses for two transactions both predicted to write key 0. -/
def wacc_two : List (Accesses Nat) := [⟨[], [0]⟩, ⟨[], [0]⟩]

/-- No outcome slot of a state holds Abort InferencerError; the worker loop
only ever records Success, SkipRest, Abort UserError or
Abort UnestimatedWrite. -/
def NoInferErr (σ : LoopState K V Out Err) : Prop :=
  ∀ u, σ.outcomes u ≠ some (.Abort .InferencerError)

section MapLemmas

variable [DecidableEq K]

theorem apply_writes_eq (ws : List (K × V)) : ∀ (st : K → Option V) (key : K),
    apply_writes st ws key =
      match last_write ws key with
      | some x => some x
      | none => st key := by
  induction ws with
  | nil => intro st key; rfl
  | cons kv rest ih =>
    intro st key
    obtain ⟨k, x⟩ := kv
    show apply_writes _ rest key = _
    rw [ih]
    cases h : last_write rest key with
    | some y => simp [last_write, h]
    | none =>
      by_cases hk : key = k
      · subst hk; simp [last_write, h]
      · simp [last_write, h, hk]

theorem last_write_mem {ws : List (K × V)} {key : K} {x : V}
    (h : last_write ws key = some x) : key ∈ ws.map Prod.fst := by
  induction ws with
  | nil => simp [last_write] at h
  | cons kv rest ih =>
    obtain ⟨k, y⟩ := kv
    simp only [last_write] at h
    cases hrest : last_write rest key with
    | some z =>
      rw [hrest] at h
      simp only [Option.some.injEq] at h
      subst h
      exact List.mem_cons_of_mem _ (ih hrest)
    | none =>
      rw [hrest] at h
      by_cases hk : key = k
      · subst hk; exact List.mem_cons_self _ _
      · simp [hk] at h

theorem write_ok_cells {m m1 : MVHashMap K V} {k : K} {v : Nat} {x : V}
    (h : m.write k v x = .ok m1) :
    ∀ key u, m1.cells key u = if key = k ∧ u = v then some (.Value x) else m.cells key u := by
  unfold MVHashMap.write at h
  cases hc : m.cells k v with
  | none => rw [hc] at h; cases h
  | some c =>
    rw [hc] at h
    cases h
    intro key u
    rfl

theorem write_ok_of_some {m : MVHashMap K V} {k : K} {v : Nat} (x : V)
    (h : m.cells k v ≠ none) : ∃ m1, m.write k v x = .ok m1 := by
  unfold MVHashMap.write
  cases hc : m.cells k v with
  | none => exact absurd hc h
  | some c => exact ⟨_, rfl⟩

theorem write_error_of_none {m : MVHashMap K V} {k : K} {v : Nat} (x : V)
    (h : m.cells k v = none) : m.write k v x = .error () := by
  unfold MVHashMap.write
  rw [h]

theorem commit_cells_of_true (v : Nat) : ∀ (ws : List (K × V)) (m m1 : MVHashMap K V),
    commit_writes m v ws = (m1, true) →
    ∀ key u, m1.cells key u =
      if u = v then
        match last_write ws key with
        | some x => some (.Value x)
        | none => m.cells key u
      else m.cells key u := by
  intro ws
  induction ws with
  | nil =>
    intro m m1 h key u
    cases h
    split <;> simp [last_write]
  | cons kv rest ih =>
    intro m m1 h key u
    obtain ⟨k, x⟩ := kv
    unfold commit_writes at h
    cases hw : m.write k v x with
    | error e => rw [hw] at h; cases h
    | ok mk =>
      rw [hw] at h
      have hcells := write_ok_cells hw
      have hr := ih mk m1 h key u
      rw [hr]
      by_cases hu : u = v
      · subst hu
        simp only [if_pos rfl] at *
        cases hrest : last_write rest key with
        | some y => simp [last_write, hrest]
        | none =>
          simp only [last_write, hrest]
          rw [hcells key u]
          by_cases hk : key = k
          · simp [hk]
          · simp [hk]
      · simp only [if_neg hu]
        rw [hcells key u]
        simp only [if_neg (fun h : key = k ∧ u = v => hu h.2)]

theorem commit_domain (v : Nat) : ∀ (ws : List (K × V)) (m : MVHashMap K V) (key : K) (u : Nat),
    ((commit_writes m v ws).1.cells key u = none ↔ m.cells key u = none) := by
  intro ws
  induction ws with
  | nil => intro m key u; rfl
  | cons kv rest ih =>
    intro m key u
    obtain ⟨k, x⟩ := kv
    unfold commit_writes
    cases hw : m.write k v x with
    | error e => rfl
    | ok mk =>
      rw [ih mk key u, write_ok_cells hw key u]
      split_ifs with h
      · simp only [Option.some_ne_none _, false_iff]
        intro hc
        rw [h.1, h.2] at hc
        rw [write_error_of_none x hc] at hw
        cases hw
      · rfl

theorem commit_true_of_some (v : Nat) : ∀ (ws : List (K × V)) (m : MVHashMap K V),
    (∀ kv ∈ ws, m.cells kv.1 v ≠ none) → (commit_writes m v ws).2 = true := by
  intro ws
  induction ws with
  | nil => intro m _; rfl
  | cons kv rest ih =>
    intro m hall
    obtain ⟨k, x⟩ := kv
    obtain ⟨mk, hw⟩ := write_ok_of_some x (hall (k, x) (List.mem_cons_self _ _))
    unfold commit_writes
    rw [hw]
    refine ih mk (fun kv hkv => ?_)
    rw [write_ok_cells hw kv.1 v]
    split_ifs with h
    · simp
    · exact hall kv (List.mem_cons_of_mem _ hkv)

theorem commit_false_of_mem (v : Nat) : ∀ (ws : List (K × V)) (m : MVHashMap K V)
    (kv : K × V), kv ∈ ws → m.cells kv.1 v = none → (commit_writes m v ws).2 = false := by
  intro ws
  induction ws with
  | nil => intro m kv h; cases h
  | cons kw rest ih =>
    intro m kv hmem hnone
    obtain ⟨k, x⟩ := kw
    unfold commit_writes
    cases hw : m.write k v x with
    | error e => rfl
    | ok mk =>
      rcases List.mem_cons.mp hmem with heq | htail
      · subst heq
        rw [write_error_of_none x hnone] at hw
        cases hw
      · refine ih mk kv htail ?_
        rw [write_ok_cells hw kv.1 v]
        split_ifs with h
        · exfalso
          obtain ⟨hk, -⟩ := h
          rw [write_error_of_none x (by rw [← hk]; exact hnone)] at hw
          cases hw
        · exact hnone

theorem commit_append_fail (v : Nat) : ∀ (ws1 : List (K × V)) (m m1 : MVHashMap K V)
    (k0 : K) (x0 : V) (ws2 : List (K × V)),
    commit_writes m v ws1 = (m1, true) → m1.cells k0 v = none →
    commit_writes m v (ws1 ++ (k0, x0) :: ws2) = (m1, false) := by
  intro ws1
  induction ws1 with
  | nil =>
    intro m m1 k0 x0 ws2 h hnone
    obtain rfl : m = m1 := congrArg Prod.fst h
    show commit_writes m v ((k0, x0) :: ws2) = (m, false)
    unfold commit_writes
    rw [write_error_of_none x0 hnone]
  | cons kv rest ih =>
    intro m m1 k0 x0 ws2 h hnone
    obtain ⟨k, x⟩ := kv
    simp only [List.cons_append]
    unfold commit_writes at h ⊢
    cases hw : m.write k v x with
    | error e => rw [hw] at h; cases h
    | ok mk =>
      rw [hw] at h
      exact ih mk m1 k0 x0 ws2 h hnone

theorem skip_if_not_set_cells (m : MVHashMap K V) (k : K) (v : Nat) :
    ∀ key u, (m.skip_if_not_set k v).cells key u =
      if key = k ∧ u = v then
        (match m.cells k v with
         | some .Unset => some .Skipped
         | c => c)
      else m.cells key u := by
  intro key u
  unfold MVHashMap.skip_if_not_set
  cases hc : m.cells k v with
  | none =>
    split_ifs with h
    · rw [h.1, h.2]; exact hc
    · rfl
  | some c =>
    cases c with
    | Unset =>
      show (if key = k ∧ u = v then some Cell.Skipped else m.cells key u) = _
      rfl
    | Skipped =>
      split_ifs with h
      · rw [h.1, h.2]; exact hc
      · rfl
    | Value y =>
      split_ifs with h
      · rw [h.1, h.2]; exact hc
      · rfl

theorem skip_writes_cells_ne (v : Nat) : ∀ (keys : List K) (m : MVHashMap K V)
    (key : K) (u : Nat), u ≠ v → (skip_writes m v keys).cells key u = m.cells key u := by
  intro keys
  induction keys with
  | nil => intro m key u _; rfl
  | cons k rest ih =>
    intro m key u hu
    show (skip_writes (m.skip_if_not_set k v) v rest).cells key u = _
    rw [ih _ key u hu, skip_if_not_set_cells]
    simp only [if_neg (fun h : key = k ∧ u = v => hu h.2)]

theorem skip_writes_cells_at (v : Nat) : ∀ (keys : List K) (m : MVHashMap K V) (key : K),
    (skip_writes m v keys).cells key v =
      if key ∈ keys then
        (match m.cells key v with
         | some .Unset => some .Skipped
         | c => c)
      else m.cells key v := by
  intro keys
  induction keys with
  | nil => intro m key; simp [skip_writes]
  | cons k rest ih =>
    intro m key
    show (skip_writes (m.skip_if_not_set k v) v rest).cells key v = _
    rw [ih]
    rw [skip_if_not_set_cells m k v key v]
    by_cases hk : key = k
    · subst hk
      rw [if_pos (show key = key ∧ v = v from ⟨rfl, rfl⟩)]
      rw [if_pos (show key ∈ key :: rest from List.mem_cons_self _ _)]
      by_cases hmem : key ∈ rest
      · rw [if_pos hmem]
        cases hc : m.cells key v with
        | none => rfl
        | some c => cases c <;> rfl
      · rw [if_neg hmem]
    · simp only [if_neg (fun h : key = k ∧ (v : Nat) = v => hk h.1)]
      by_cases hmem : key ∈ rest
      · simp [hmem, hk]
      · simp [hmem, hk]

end MapLemmas

section Bounds

theorem infer_all_length {infer : Txn K V Out Err → Option (Accesses K)} :
    ∀ {txns : List (Txn K V Out Err)} {acc : List (Accesses K)},
    infer_all infer txns = some acc → acc.length = txns.length := by
  intro txns
  induction txns with
  | nil => intro acc h; cases h; rfl
  | cons t rest ih =>
    intro acc h
    unfold infer_all at h
    cases hi : infer t with
    | none => rw [hi] at h; cases h
    | some a =>
      rw [hi] at h
      cases hr : infer_all infer rest with
      | none => rw [hr] at h; cases h
      | some as_ =>
        rw [hr] at h
        cases h
        simp [ih hr]

theorem nodup_length_le_of_lt {l : List Nat} {n : Nat} (hnd : l.Nodup)
    (hlt : ∀ u ∈ l, u < n) : l.length ≤ n := by
  have h1 : l.toFinset.card = l.length := List.toFinset_card_of_nodup hnd
  have h2 : l.toFinset ⊆ Finset.range n := by
    intro u hu
    rw [List.mem_toFinset] at hu
    exact Finset.mem_range.mpr (hlt u hu)
  calc l.length = l.toFinset.card := h1.symm
    _ ≤ (Finset.range n).card := Finset.card_le_card h2
    _ = n := Finset.card_range n

theorem mem_path_version_tuples_iff [DecidableEq K] {acc : List (Accesses K)} {k : K}
    {u : Nat} :
    (k, u) ∈ path_version_tuples acc ↔ ∃ a, acc[u]? = some a ∧ k ∈ a.keys_written := by
  unfold path_version_tuples
  rw [List.mem_flatten]
  constructor
  · rintro ⟨l, hl, hkl⟩
    rw [List.mem_map] at hl
    obtain ⟨p, hp, rfl⟩ := hl
    rw [List.mem_map] at hkl
    obtain ⟨k2, hk2, heq⟩ := hkl
    injection heq with h1 h2
    subst h1
    subst h2
    exact ⟨p.2, List.mem_enum_iff_getElem?.mp hp, hk2⟩
  · rintro ⟨a, ha, hk⟩
    refine ⟨a.keys_written.map (fun q => (q, u)), ?_, ?_⟩
    · rw [List.mem_map]
      exact ⟨(u, a), List.mem_enum_iff_getElem?.mpr ha, rfl⟩
    · rw [List.mem_map]
      exact ⟨k, hk, rfl⟩

theorem version_lt_of_mem_pvt [DecidableEq K] {acc : List (Accesses K)} {k : K} {u : Nat}
    (h : (k, u) ∈ path_version_tuples acc) : u < acc.length := by
  obtain ⟨a, ha, -⟩ := mem_path_version_tuples_iff.mp h
  have := List.getElem?_eq_some.mp ha
  exact this.1

theorem foldr_max_le {l : List Nat} {n : Nat} (h : ∀ x ∈ l, x ≤ n) :
    l.foldr max 0 ≤ n := by
  induction l with
  | nil => exact Nat.zero_le n
  | cons x rest ih =>
    simp only [List.foldr_cons]
    exact max_le (h x (List.mem_cons_self _ _))
      (ih fun y hy => h y (List.mem_cons_of_mem _ hy))

theorem writers_of_length_le [DecidableEq K] {acc : List (Accesses K)} (key : K) :
    (writers_of (path_version_tuples acc) key).length ≤ acc.length := by
  apply nodup_length_le_of_lt (List.nodup_dedup _)
  intro u hu
  unfold writers_of at hu
  rw [List.mem_dedup, List.mem_map] at hu
  obtain ⟨q, hq, rfl⟩ := hu
  rw [List.mem_filter] at hq
  obtain ⟨hqmem, -⟩ := hq
  exact version_lt_of_mem_pvt (k := q.1) (by rw [Prod.mk.eta]; exact hqmem)

theorem max_dependency_level_le [DecidableEq K] (acc : List (Accesses K)) :
    max_dependency_level (path_version_tuples acc) ≤ acc.length := by
  unfold max_dependency_level
  apply foldr_max_le
  intro x hx
  rw [List.mem_map] at hx
  obtain ⟨p, hp, rfl⟩ := hx
  exact writers_of_length_le p.1

end Bounds

section EasyClaims

/-- C3: when a read through an MVHashMapView finds its nearest earlier writer
cell unresolved at producer version dep, the view calls add_dependency; when
that returns false (exactly when the producer is already Executed) it pushes
its own version onto the ready queue; in both cases it sets
has_unexpected_read and returns an error to the VM instead of a value. -/
theorem claim_c3 [DecidableEq K] (view : MVHashMapView K V) (key : K) (dep : Nat)
    (h : view.map.read key view.version = .error (some dep)) :
    (view.read key).1 = .error () ∧
    (view.read key).2.has_unexpected_read = true ∧
    ((view.scheduler.add_dependency view.version dep).1 = false ↔
      view.scheduler.status dep = .Executed) ∧
    ((view.read key).2.scheduler =
      if (view.scheduler.add_dependency view.version dep).1
      then (view.scheduler.add_dependency view.version dep).2
      else (view.scheduler.add_dependency view.version dep).2.add_transaction view.version) ∧
    (view.scheduler.status dep = .Executed →
      (view.read key).2.scheduler = view.scheduler.add_transaction view.version) := by
  have hread : view.read key =
      (.error (),
       { view with
         scheduler :=
           if (view.scheduler.add_dependency view.version dep).1
           then (view.scheduler.add_dependency view.version dep).2
           else (view.scheduler.add_dependency view.version dep).2.add_transaction view.version,
         has_unexpected_read := true }) := by
    unfold MVHashMapView.read
    rw [h]
  refine ⟨by rw [hread], by rw [hread], ?_, by rw [hread], ?_⟩
  · unfold Scheduler.add_dependency
    cases hst : view.scheduler.status dep <;> simp [hst]
  · intro hst
    rw [hread]
    show (if (view.scheduler.add_dependency view.version dep).1 then _ else _) = _
    unfold Scheduler.add_dependency
    rw [hst]
    simp

/-- C3 witness: a concrete view for version 1 whose read of key 0 is blocked
on the unresolved producer 0. -/
theorem claim_c3_witness :
    wview0.map.read 0 1 = .error (some 0) ∧
    (wview0.read 0).1 = .error () ∧
    (wview0.read 0).2.has_unexpected_read = true :=
  ⟨rfl, (claim_c3 wview0 0 0 rfl).1, (claim_c3 wview0 0 0 rfl).2.1⟩

/-- C5: a non-blocked attempt whose VM run returns Abort e lowers the stop
version to min(current, v + 1) and records Abort (UserError e) in slot v;
moreover the scheduler cursor only hands out fresh versions below the
current stop version, so versions after v that have not started are never
executed. -/
theorem claim_c5 [DecidableEq K] (gw : Out → List (K × V)) (txns : List (Txn K V Out Err))
    (acc : List (Accesses K)) (σ : LoopState K V Out Err) (v : Nat)
    (t : Txn K V Out Err) (a : Accesses K) (e : Err) (vals : List (Option V))
    (ht : txns[v]? = some t) (ha : acc[v]? = some a) (hv : v ∉ σ.executed)
    (hok : view_reads σ.map v t.reads = .ok vals) (hrun : t.run vals = .Abort e) :
    ((attempt gw txns acc σ v).stop_version = min σ.stop_version (v + 1) ∧
     (attempt gw txns acc σ v).outcomes v = some (.Abort (.UserError e))) ∧
    (∀ s : Scheduler, s.ready_queue = [] →
      ∀ w s2, s.next_txn_to_execute = some (w, s2) → w < s.stop_version) := by
  constructor
  · unfold attempt
    rw [ht, ha]
    simp [hv, hok, hrun, set_outcome, apply_status]
  · intro s hq w s2 hnext
    unfold Scheduler.next_txn_to_execute at hnext
    rw [hq] at hnext
    split_ifs at hnext with hlt
    simp only [Option.some.injEq, Prod.mk.injEq] at hnext
    rw [← hnext.1]
    exact hlt

/-- C5 witness: a one-transaction block whose transaction aborts with user
error 7 from the initial state. -/
theorem claim_c5_witness :
    wtxns_abort[0]? = some (txn_const [] (.Abort 7)) ∧
    (attempt (fun _ => []) wtxns_abort wacc_one (wstate wtxns_abort wacc_one) 0).outcomes 0 =
      some (.Abort (.UserError 7)) := by
  refine ⟨rfl, ?_⟩
  exact (claim_c5 (fun _ => []) wtxns_abort wacc_one (wstate wtxns_abort wacc_one) 0
    (txn_const [] (.Abort 7)) ⟨[], [0]⟩ 7 [] rfl rfl (by simp [wstate, init_state])
    rfl rfl).1.2

/-- C6: when the view has recorded an unexpected read (some read of the
attempt was blocked), the worker skips to the next iteration: the attempt
changes nothing, committing no writes, skipping no cells, finishing no
version and writing no outcome slot. -/
theorem claim_c6 [DecidableEq K] (gw : Out → List (K × V)) (txns : List (Txn K V Out Err))
    (acc : List (Accesses K)) (σ : LoopState K V Out Err) (v : Nat)
    (t : Txn K V Out Err) (dep : Nat)
    (ht : txns[v]? = some t) (hblocked : view_reads σ.map v t.reads = .error dep) :
    attempt gw txns acc σ v = σ := by
  unfold attempt
  rw [ht]
  cases hacc : acc[v]? with
  | none => rfl
  | some a =>
    by_cases hv : v ∈ σ.executed
    · simp [hv]
    · simp [hv, hblocked]

/-- C6 witness: in the chain block the reader at version 1 is blocked on the
unresolved cell of version 0, and its attempt leaves the state unchanged. -/
theorem claim_c6_witness :
    wtxns_chain[1]? = some txn_read_zero ∧
    view_reads (wstate wtxns_chain wacc_chain).map 1 txn_read_zero.reads = .error 0 ∧
    attempt (fun _ => []) wtxns_chain wacc_chain (wstate wtxns_chain wacc_chain) 1 =
      wstate wtxns_chain wacc_chain :=
  ⟨rfl, rfl,
   claim_c6 (fun _ => []) wtxns_chain wacc_chain (wstate wtxns_chain wacc_chain) 1
     txn_read_zero 0 rfl rfl⟩

/-- C8: for a non-empty block of N transactions with maximum dependency level
d at least 1, the spawned worker count compute_cpus equals
min(num_cpus, 1 + N / 50, N / d) and is at least 1; the level d never
exceeds N because the predicted writers of one key are distinct versions of
the block. -/
theorem claim_c8 [DecidableEq K] (num_cpus : Nat) (txns : List (Txn K V Out Err))
    (infer : Txn K V Out Err → Option (Accesses K)) (acc : List (Accesses K))
    (hacc : infer_all infer txns = some acc)
    (d : Nat) (hd : d = max_dependency_level (path_version_tuples acc))
    (hcpu : 1 ≤ num_cpus) (hd1 : 1 ≤ d) (hne : txns ≠ []) :
    compute_cpus num_cpus txns.length d =
      min num_cpus (min (1 + txns.length / 50) (txns.length / d)) ∧
    1 ≤ compute_cpus num_cpus txns.length d := by
  have hlen : acc.length = txns.length := infer_all_length hacc
  have hdN : d ≤ txns.length := by
    rw [hd, ← hlen]
    exact max_dependency_level_le acc
  have hdiv : 1 ≤ txns.length / d := (Nat.one_le_div_iff hd1).mpr hdN
  unfold compute_cpus
  generalize txns.length / d = q at hdiv ⊢
  constructor
  · omega
  · omega

/-- C8 witness: one transaction predicted to write one key, four CPUs. -/
theorem claim_c8_witness :
    infer_all infer_zero wtxns_abort = some wacc_one ∧
    (1 : Nat) = max_dependency_level (path_version_tuples wacc_one) ∧
    compute_cpus 4 wtxns_abort.length 1 =
      min 4 (min (1 + wtxns_abort.length / 50) (wtxns_abort.length / 1)) ∧
    1 ≤ compute_cpus 4 wtxns_abort.length 1 := by
  refine ⟨rfl, by decide, ?_⟩
  exact claim_c8 4 wtxns_abort infer_zero wacc_one rfl 1 (by decide) (by decide)
    (by decide) (by simp [wtxns_abort])

/-- C9: the empty block returns Ok [] immediately, for every inferencer,
write function and schedule, hence without invoking the inferencer, building
the map or spawning workers. -/
theorem claim_c9 (K V Out Err : Type) [DecidableEq K]
    (infer : Txn K V Out Err → Option (Accesses K)) (gw : Out → List (K × V))
    (schedule : List Nat) :
    execute_transactions_parallel infer gw ([] : List (Txn K V Out Err)) schedule =
      some (.ok []) := rfl

/-- C10: a non-blocked attempt whose VM run succeeds but whose commit hits an
unestimated key records Abort UnestimatedWrite in its slot without touching
the stop version, so hand-outs continue; the commit loop stops at the first
failing write, keeps the writes committed before it (no rollback), and the
scheduler keeps handing out versions while the cursor is below the stop
version. -/
theorem claim_c10 [DecidableEq K] (gw : Out → List (K × V)) (txns : List (Txn K V Out Err))
    (acc : List (Accesses K)) (σ : LoopState K V Out Err) (v : Nat)
    (t : Txn K V Out Err) (a : Accesses K) (out : Out) (vals : List (Option V))
    (ht : txns[v]? = some t) (ha : acc[v]? = some a) (hv : v ∉ σ.executed)
    (hok : view_reads σ.map v t.reads = .ok vals) (hrun : t.run vals = .Success out)
    (hfail : (commit_writes σ.map v (gw out)).2 = false) :
    ((attempt gw txns acc σ v).stop_version = σ.stop_version ∧
     (attempt gw txns acc σ v).outcomes v = some (.Abort .UnestimatedWrite) ∧
     (attempt gw txns acc σ v).executed = v :: σ.executed ∧
     (attempt gw txns acc σ v).map =
       skip_writes (commit_writes σ.map v (gw out)).1 v a.keys_written) ∧
    (∀ (m m1 : MVHashMap K V) (ws1 ws2 : List (K × V)) (k0 : K) (x0 : V),
      commit_writes m v ws1 = (m1, true) → m1.cells k0 v = none →
      commit_writes m v (ws1 ++ (k0, x0) :: ws2) = (m1, false)) ∧
    (∀ (m m1 : MVHashMap K V) (ws : List (K × V)), commit_writes m v ws = (m1, true) →
      ∀ (key : K) (x : V), last_write ws key = some x →
        m1.cells key v = some (.Value x)) ∧
    (∀ s : Scheduler, s.ready_queue = [] → s.next_to_execute < s.stop_version →
      (s.next_txn_to_execute).isSome = true) := by
  refine ⟨?_, ?_, ?_, ?_⟩
  · unfold attempt
    rw [ht, ha]
    simp [hv, hok, hrun, hfail, set_outcome, apply_status]
  · intro m m1 ws1 ws2 k0 x0 h hnone
    exact commit_append_fail v ws1 m m1 k0 x0 ws2 h hnone
  · intro m m1 ws h key x hlw
    rw [commit_cells_of_true v ws m m1 h key v]
    simp [hlw]
  · intro s hq hlt
    unfold Scheduler.next_txn_to_execute
    rw [hq]
    rw [if_pos hlt]
    rfl

/-- C10 witness: a transaction whose output writes key 1 while only key 0 was
predicted; the commit fails and the slot records Abort UnestimatedWrite. -/
theorem claim_c10_witness :
    (commit_writes (wstate wtxns_five wacc_one).map 0 (gw_five 5)).2 = false ∧
    (attempt gw_five wtxns_five wacc_one (wstate wtxns_five wacc_one) 0).outcomes 0 =
      some (.Abort .UnestimatedWrite) ∧
    (attempt gw_five wtxns_five wacc_one (wstate wtxns_five wacc_one) 0).stop_version =
      (wstate wtxns_five wacc_one).stop_version := by
  have h := claim_c10 gw_five wtxns_five wacc_one (wstate wtxns_five wacc_one) 0
    (txn_const [] (.Success 5)) ⟨[], [0]⟩ 5 [] rfl rfl (by simp [wstate, init_state])
    rfl rfl rfl
  exact ⟨rfl, h.1.2.1, h.1.1⟩

end EasyClaims

section DomainLemmas

theorem skip_writes_domain [DecidableEq K] (v : Nat) (keys : List K) (m : MVHashMap K V)
    (key : K) (u : Nat) :
    ((skip_writes m v keys).cells key u = none ↔ m.cells key u = none) := by
  by_cases hu : u = v
  · subst hu
    rw [skip_writes_cells_at]
    split_ifs with hmem
    · cases hc : m.cells key u with
      | none => simp
      | some c => cases c <;> simp
    · exact Iff.rfl
  · rw [skip_writes_cells_ne v keys m key u hu]

theorem apply_status_success [DecidableEq K] (gw : Out → List (K × V))
    (m : MVHashMap K V) (stop v : Nat) (out : Out) :
    apply_status gw m stop v (ExecutionStatus.Success out : ExecutionStatus Out Err) =
      ((commit_writes m v (gw out)).1, stop,
       if (commit_writes m v (gw out)).2 then .Success out
       else .Abort .UnestimatedWrite) := rfl

theorem apply_status_skiprest [DecidableEq K] (gw : Out → List (K × V))
    (m : MVHashMap K V) (stop v : Nat) (out : Out) :
    apply_status gw m stop v (ExecutionStatus.SkipRest out : ExecutionStatus Out Err) =
      if (commit_writes m v (gw out)).2
      then ((commit_writes m v (gw out)).1, min stop (v + 1), .SkipRest out)
      else ((commit_writes m v (gw out)).1, stop, .Abort .UnestimatedWrite) := rfl

theorem apply_status_abort [DecidableEq K] (gw : Out → List (K × V))
    (m : MVHashMap K V) (stop v : Nat) (e : Err) :
    apply_status gw m stop v (ExecutionStatus.Abort e : ExecutionStatus Out Err) =
      (m, min stop (v + 1), .Abort (.UserError e)) := rfl

theorem apply_status_domain [DecidableEq K] (gw : Out → List (K × V))
    (m : MVHashMap K V) (stop v : Nat) (s : ExecutionStatus Out Err) (key : K) (u : Nat) :
    ((apply_status gw m stop v s).1.cells key u = none ↔ m.cells key u = none) := by
  cases s with
  | Success out => exact commit_domain v (gw out) m key u
  | SkipRest out =>
    rw [apply_status_skiprest]
    split_ifs with hc
    · exact commit_domain v (gw out) m key u
    · exact commit_domain v (gw out) m key u
  | Abort e => exact Iff.rfl

theorem apply_status_not_infer [DecidableEq K] (gw : Out → List (K × V))
    (m : MVHashMap K V) (stop v : Nat) (s : ExecutionStatus Out Err) :
    (apply_status gw m stop v s).2.2 ≠ .Abort .InferencerError := by
  cases s with
  | Success out =>
    rw [apply_status_success]
    show (if (commit_writes m v (gw out)).2
        then ExecutionStatus.Success out
        else ExecutionStatus.Abort Error.UnestimatedWrite) ≠ _
    split_ifs <;> simp
  | SkipRest out =>
    rw [apply_status_skiprest]
    split_ifs <;> simp
  | Abort e => simp [apply_status_abort]

theorem attempt_domain [DecidableEq K] (gw : Out → List (K × V))
    (txns : List (Txn K V Out Err)) (acc : List (Accesses K))
    (σ : LoopState K V Out Err) (v : Nat) (key : K) (u : Nat) :
    ((attempt gw txns acc σ v).map.cells key u = none ↔ σ.map.cells key u = none) := by
  unfold attempt
  cases ht : txns[v]? with
  | none => exact Iff.rfl
  | some t =>
    cases ha : acc[v]? with
    | none => exact Iff.rfl
    | some a =>
      by_cases hv : v ∈ σ.executed
      · simp only [if_pos hv]
      · simp only [if_neg hv]
        cases hreads : view_reads σ.map v t.reads with
        | error d => exact Iff.rfl
        | ok vals =>
          show ((skip_writes (apply_status gw σ.map σ.stop_version v (t.run vals)).1 v
              a.keys_written).cells key u = none ↔ _)
          rw [skip_writes_domain]
          exact apply_status_domain gw σ.map σ.stop_version v (t.run vals) key u

theorem celldom_init [DecidableEq K] (txns : List (Txn K V Out Err))
    (acc : List (Accesses K)) :
    CellDom acc
      (init_state txns (MVHashMap.new_from_parallel (V := V) (path_version_tuples acc)).1 :
        LoopState K V Out Err) := by
  intro key v
  show (if (key, v) ∈ path_version_tuples acc then some Cell.Unset else none) = none ↔ _
  split_ifs with hmem
  · exact iff_of_false (by simp)
      (fun hnp => hnp (mem_path_version_tuples_iff.mp hmem))
  · exact iff_of_true rfl (fun hp => hmem (mem_path_version_tuples_iff.mpr hp))

theorem celldom_attempt [DecidableEq K] {gw : Out → List (K × V)}
    {txns : List (Txn K V Out Err)} {acc : List (Accesses K)}
    {σ : LoopState K V Out Err} (v : Nat) (h : CellDom acc σ) :
    CellDom acc (attempt gw txns acc σ v) := by
  intro key u
  rw [attempt_domain]
  exact h key u

theorem celldom_run [DecidableEq K] {gw : Out → List (K × V)}
    {txns : List (Txn K V Out Err)} {acc : List (Accesses K)} :
    ∀ (sched : List Nat) (σ : LoopState K V Out Err), CellDom acc σ →
    CellDom acc (run_schedule gw txns acc σ sched) := by
  intro sched
  induction sched with
  | nil => intro σ h; exact h
  | cons v rest ih => intro σ h; exact ih _ (celldom_attempt v h)

theorem attempt_outcomes_not_infer [DecidableEq K] (gw : Out → List (K × V))
    (txns : List (Txn K V Out Err)) (acc : List (Accesses K))
    (σ : LoopState K V Out Err) (v u : Nat) :
    (attempt gw txns acc σ v).outcomes u = σ.outcomes u ∨
    (attempt gw txns acc σ v).outcomes u ≠ some (.Abort .InferencerError) := by
  unfold attempt
  cases ht : txns[v]? with
  | none => exact Or.inl rfl
  | some t =>
    cases ha : acc[v]? with
    | none => exact Or.inl rfl
    | some a =>
      by_cases hv : v ∈ σ.executed
      · exact Or.inl (by simp only [if_pos hv])
      · simp only [if_neg hv]
        cases hreads : view_reads σ.map v t.reads with
        | error d => exact Or.inl rfl
        | ok vals =>
          by_cases hu : u = v
          · subst hu
            refine Or.inr ?_
            show set_outcome σ.outcomes u
              ((apply_status gw σ.map σ.stop_version u (t.run vals)).2.2) u ≠ _
            unfold set_outcome
            rw [if_pos rfl]
            intro hcontra
            exact apply_status_not_infer gw σ.map σ.stop_version u (t.run vals)
              (Option.some.inj hcontra)
          · refine Or.inl ?_
            show set_outcome σ.outcomes v
              ((apply_status gw σ.map σ.stop_version v (t.run vals)).2.2) u = _
            unfold set_outcome
            rw [if_neg hu]

theorem run_no_infer_err [DecidableEq K] (gw : Out → List (K × V))
    (txns : List (Txn K V Out Err)) (acc : List (Accesses K)) :
    ∀ (sched : List Nat) (σ : LoopState K V Out Err), NoInferErr σ →
    NoInferErr (run_schedule gw txns acc σ sched) := by
  intro sched
  induction sched with
  | nil => intro σ h; exact h
  | cons v rest ih =>
    intro σ h
    refine ih _ (fun u => ?_)
    rcases attempt_outcomes_not_infer gw txns acc σ v u with heq | hne
    · rw [heq]; exact h u
    · exact hne

theorem extract_outputs_error_mem {l : List (ExecutionStatus Out (Error Err))}
    {e : Error Err} (h : extract_outputs l = .error e) : ExecutionStatus.Abort e ∈ l := by
  induction l with
  | nil => cases h
  | cons s rest ih =>
    cases s with
    | Success o =>
      unfold extract_outputs at h
      cases hr : extract_outputs rest with
      | ok os => rw [hr] at h; cases h
      | error e2 =>
        rw [hr] at h
        cases h
        exact List.mem_cons_of_mem _ (ih hr)
    | SkipRest o =>
      unfold extract_outputs at h
      cases hr : extract_outputs rest with
      | ok os => rw [hr] at h; cases h
      | error e2 =>
        rw [hr] at h
        cases h
        exact List.mem_cons_of_mem _ (ih hr)
    | Abort e2 =>
      unfold extract_outputs at h
      cases h
      exact List.mem_cons_self _ _

theorem collect_from_isSome {out : Nat → Option (ExecutionStatus Out (Error Err))} :
    ∀ (n i : Nat), (∀ u, i ≤ u → u < i + n → (out u).isSome) →
    ∃ l, collect_from out i n = some l := by
  intro n
  induction n with
  | zero => intro i _; exact ⟨[], rfl⟩
  | succ n ih =>
    intro i h
    obtain ⟨b, hb⟩ := Option.isSome_iff_exists.mp (h i le_rfl (by omega))
    obtain ⟨l, hl⟩ := ih (i + 1) (fun u hu1 hu2 => h u (by omega) (by omega))
    refine ⟨b :: l, ?_⟩
    unfold collect_from
    rw [hb, hl]

theorem collect_from_mem {out : Nat → Option (ExecutionStatus Out (Error Err))} :
    ∀ (n i : Nat) (l : List (ExecutionStatus Out (Error Err)))
      (b : ExecutionStatus Out (Error Err)), collect_from out i n = some l →
    b ∈ l → ∃ u, i ≤ u ∧ u < i + n ∧ out u = some b := by
  intro n
  induction n with
  | zero =>
    intro i l b h hb
    cases h
    cases hb
  | succ n ih =>
    intro i l b h hb
    unfold collect_from at h
    cases ho : out i with
    | none => rw [ho] at h; cases h
    | some c =>
      rw [ho] at h
      cases hl : collect_from out (i + 1) n with
      | none => rw [hl] at h; cases h
      | some l2 =>
        rw [hl] at h
        cases h
        rcases List.mem_cons.mp hb with rfl | hmem
        · exact ⟨i, le_rfl, by omega, ho⟩
        · obtain ⟨u, h1, h2, h3⟩ := ih (i + 1) l2 b hl hmem
          exact ⟨u, by omega, by omega, h3⟩

theorem collect_extract_first_abort
    {out : Nat → Option (ExecutionStatus Out (Error Err))} :
    ∀ (n i v : Nat), i ≤ v → v < i + n →
    out v = some (.Abort .UnestimatedWrite) →
    (∀ u, i ≤ u → u < v → ∀ e, out u ≠ some (.Abort e)) →
    (∀ u, i ≤ u → u < i + n → (out u).isSome) →
    (collect_from out i n).map extract_outputs = some (.error .UnestimatedWrite) := by
  intro n
  induction n with
  | zero => intro i v h1 h2; omega
  | succ n ih =>
    intro i v hiv hvn habort hpre hsome
    by_cases hvi : v = i
    · subst hvi
      obtain ⟨l, hl⟩ :=
        collect_from_isSome n (v + 1) (fun u hu1 hu2 => hsome u (by omega) (by omega))
      have hcol : collect_from out v (n + 1) = some (.Abort .UnestimatedWrite :: l) := by
        unfold collect_from
        rw [habort, hl]
      rw [hcol]
      rfl
    · obtain ⟨b, hb⟩ := Option.isSome_iff_exists.mp (hsome i le_rfl (by omega))
      have hrec := ih (i + 1) v (by omega) (by omega) habort
        (fun u hu1 hu2 e => hpre u (by omega) hu2 e)
        (fun u hu1 hu2 => hsome u (by omega) (by omega))
      cases hl : collect_from out (i + 1) n with
      | none => rw [hl] at hrec; cases hrec
      | some l =>
        rw [hl] at hrec
        simp only [Option.map_some'] at hrec
        have hcol : collect_from out i (n + 1) = some (b :: l) := by
          unfold collect_from
          rw [hb, hl]
        rw [hcol]
        simp only [Option.map_some', Option.some.injEq] at hrec ⊢
        have hbne : ∀ e, b ≠ ExecutionStatus.Abort e := by
          intro e he
          exact hpre i le_rfl (by omega) e (by rw [hb, he])
        cases b with
        | Success o => simp [extract_outputs, hrec]
        | SkipRest o => simp [extract_outputs, hrec]
        | Abort e => exact absurd rfl (hbne e)

end DomainLemmas

section ErrorClaims

/-- C2 (amended): a transaction whose reads resolved but whose output writes
a key outside its predicted write set fails its commit and records
Abort UnestimatedWrite in its slot; the block then returns
Err UnestimatedWrite with no partial results provided that slot lies below
the final stop version and no smaller slot records an Abort.  (As originally
stated the claim fails: under a parallel schedule an Abort recorded at a
smaller version is returned instead; see the counterexample.) -/
theorem claim_c2 [DecidableEq K] :
    (∀ (gw : Out → List (K × V)) (txns : List (Txn K V Out Err))
       (acc : List (Accesses K)) (σ : LoopState K V Out Err) (v : Nat)
       (t : Txn K V Out Err) (a : Accesses K) (out : Out) (vals : List (Option V))
       (kv : K × V),
       CellDom acc σ → txns[v]? = some t → acc[v]? = some a → v ∉ σ.executed →
       view_reads σ.map v t.reads = .ok vals →
       (t.run vals = .Success out ∨ t.run vals = .SkipRest out) →
       kv ∈ gw out → kv.1 ∉ a.keys_written →
       (attempt gw txns acc σ v).outcomes v = some (.Abort .UnestimatedWrite)) ∧
    (∀ (out : Nat → Option (ExecutionStatus Out (Error Err))) (k v : Nat),
       v < k → out v = some (.Abort .UnestimatedWrite) →
       (∀ u, u < v → ∀ e, out u ≠ some (.Abort e)) →
       (∀ u, u < k → (out u).isSome) →
       get_all_results out k = some (.error .UnestimatedWrite)) := by
  constructor
  · intro gw txns acc σ v t a out vals kv hdom ht ha hv hok hrun hkv hkv1
    have hnone : σ.map.cells kv.1 v = none := by
      refine (hdom kv.1 v).mpr ?_
      rintro ⟨a2, ha2, hmem⟩
      rw [ha] at ha2
      cases ha2
      exact hkv1 hmem
    have hfail : (commit_writes σ.map v (gw out)).2 = false :=
      commit_false_of_mem v (gw out) σ.map kv hkv hnone
    rcases hrun with hrun | hrun
    · unfold attempt
      rw [ht, ha]
      simp [hv, hok, hrun, hfail, set_outcome, apply_status]
    · unfold attempt
      rw [ht, ha]
      simp [hv, hok, hrun, hfail, set_outcome, apply_status]
  · intro out k v hvk habort hpre hsome
    unfold get_all_results
    exact collect_extract_first_abort k 0 v (Nat.zero_le v) (by omega) habort
      (fun u _ hu e => hpre u hu e) (fun u _ hu => hsome u (by omega))

/-- C2 witness: the unestimated write of the one-transaction block records
Abort UnestimatedWrite, and a block whose first Abort slot is
UnestimatedWrite returns Err UnestimatedWrite. -/
theorem claim_c2_witness :
    ((1, 5) ∈ gw_five 5 ∧ (1 : Nat) ∉ (⟨[], [0]⟩ : Accesses Nat).keys_written ∧
     (attempt gw_five wtxns_five wacc_one (wstate wtxns_five wacc_one) 0).outcomes 0 =
       some (.Abort .UnestimatedWrite)) ∧
    get_all_results
      ((fun u => if u = 0 then some (.Abort .UnestimatedWrite) else some (.Success 1)) :
        Nat → Option (ExecutionStatus Nat (Error Nat))) 2 =
      some (.error .UnestimatedWrite) := by
  constructor
  · refine ⟨by decide, by decide, ?_⟩
    exact claim_c2.1 gw_five wtxns_five wacc_one (wstate wtxns_five wacc_one) 0
      (txn_const [] (.Success 5)) ⟨[], [0]⟩ 5 [] (1, 5)
      (celldom_init wtxns_five wacc_one) rfl rfl (by simp [wstate, init_state]) rfl
      (Or.inl rfl) (by decide) (by decide)
  · exact (@claim_c2 Nat Nat Nat Nat _).2 _ 2 0 (by omega) rfl
      (fun u hu e => by omega)
      (fun u _ => by by_cases h0 : u = 0 <;> simp [h0])

/-- C2 counterexample: in the two-transaction block where version 1 writes
the unpredicted key 1 and version 0 aborts with user error 7, the schedule
that completes version 1 before version 0 (two workers, the first one slow)
returns Err (UserError 7), not Err UnestimatedWrite, although a transaction
of the block wrote a key outside its predicted write set. -/
theorem claim_c2_counterexample :
    execute_transactions_parallel infer_zero gw_five wtxns_mask [1, 0] =
      some (.error (.UserError 7)) ∧
    ((1 : Nat), (5 : Nat)) ∈ gw_five 5 ∧
    (1 : Nat) ∉ (⟨[], [0]⟩ : Accesses Nat).keys_written ∧
    infer_all infer_zero wtxns_mask = some wacc_two ∧
    wtxns_mask[1]? = some (txn_const [] (.Success 5)) ∧
    (txn_const [] (.Success 5)).run [] = .Success 5 :=
  ⟨rfl, by decide, by decide, rfl, rfl, rfl⟩

/-- C7: for a non-empty block, execute_transactions_parallel returns
Err InferencerError exactly when the inferencer fails on some transaction or
the maximum dependency level measured while priming is zero; the worker loop
itself never records an InferencerError outcome. -/
theorem claim_c7 [DecidableEq K] (infer : Txn K V Out Err → Option (Accesses K))
    (gw : Out → List (K × V)) (txns : List (Txn K V Out Err)) (schedule : List Nat)
    (hne : txns ≠ []) :
    (execute_transactions_parallel infer gw txns schedule =
        some (.error .InferencerError)) ↔
    (infer_all infer txns = none ∨
     ∃ acc, infer_all infer txns = some acc ∧
       max_dependency_level (path_version_tuples acc) = 0) := by
  unfold execute_transactions_parallel
  rw [if_neg (by simpa using hne)]
  cases hinf : infer_all infer txns with
  | none => simp
  | some acc =>
    simp only [Option.some.injEq, reduceCtorEq, false_or]
    by_cases hz : max_dependency_level (path_version_tuples acc) = 0
    · rw [if_pos (by exact hz)]
      simp only [Option.some.injEq, Except.error.injEq, true_iff]
      exact ⟨acc, rfl, hz⟩
    · rw [if_neg (by exact hz)]
      constructor
      · intro h
        exfalso
        unfold get_all_results at h
        cases hcol : collect_from
            (run_schedule gw txns acc
              (init_state txns
                (MVHashMap.new_from_parallel (V := V) (path_version_tuples acc)).1)
              schedule).outcomes 0
            (run_schedule gw txns acc
              (init_state txns
                (MVHashMap.new_from_parallel (V := V) (path_version_tuples acc)).1)
              schedule).stop_version with
        | none => rw [hcol] at h; cases h
        | some l =>
          rw [hcol] at h
          simp only [Option.map_some', Option.some.injEq] at h
          have hmem := extract_outputs_error_mem h
          obtain ⟨u, -, -, hu⟩ := collect_from_mem _ 0 l _ hcol hmem
          have hno := run_no_infer_err gw txns acc schedule
            (init_state txns
              (MVHashMap.new_from_parallel (V := V) (path_version_tuples acc)).1)
            (fun _ => by simp [init_state])
          exact hno u hu
      · rintro ⟨acc2, hacc2, hz2⟩
        subst hacc2
        exact absurd hz2 hz

/-- C7 witness: a non-empty block with a failing inferencer returns
Err InferencerError. -/
theorem claim_c7_witness :
    wtxns_abort ≠ [] ∧
    execute_transactions_parallel infer_fail gw_none wtxns_abort [0] =
      some (.error .InferencerError) :=
  ⟨by simp [wtxns_abort],
   (claim_c7 infer_fail gw_none wtxns_abort [0] (by simp [wtxns_abort])).mpr
     (Or.inl rfl)⟩

/-- C4 counterexample: both versions of the block return SkipRest and commit;
under the schedule that completes version 1 first, version 1 records
SkipRest and calls set_stop_version 2, yet the returned vector has length 1,
not 1 + 1, because version 0 then lowers the stop version to 1. -/
theorem claim_c4_counterexample :
    execute_transactions_parallel infer_zero gw_none wtxns_skip2 [1, 0] =
      some (.ok [20]) ∧
    wtxns_skip2[1]? = some (txn_const [] (.SkipRest 21)) ∧
    (txn_const [] (.SkipRest 21)).run [] = .SkipRest 21 ∧
    (commit_writes (wstate wtxns_skip2 wacc_two).map 1 (gw_none 21)).2 = true ∧
    (run_schedule gw_none wtxns_skip2 wacc_two (wstate wtxns_skip2 wacc_two)
        [1, 0]).outcomes 1 = some (.SkipRest 21) ∧
    ¬ ([20].length = 1 + 1) :=
  ⟨rfl, rfl, rfl, rfl, rfl, by decide⟩

end ErrorClaims

section Refinement

variable [DecidableEq K]
variable {gw : Out → List (K × V)} {txns : List (Txn K V Out Err)} {acc : List (Accesses K)}

theorem attempt_no_txn (σ : LoopState K V Out Err) (v : Nat) (ht : txns[v]? = none) :
    attempt gw txns acc σ v = σ := by
  unfold attempt
  rw [ht]

theorem attempt_no_acc (σ : LoopState K V Out Err) (v : Nat) (t : Txn K V Out Err)
    (ht : txns[v]? = some t) (ha : acc[v]? = none) :
    attempt gw txns acc σ v = σ := by
  unfold attempt
  rw [ht, ha]

theorem attempt_executed_eq (σ : LoopState K V Out Err) (v : Nat) (t : Txn K V Out Err)
    (a : Accesses K) (ht : txns[v]? = some t) (ha : acc[v]? = some a)
    (hv : v ∈ σ.executed) :
    attempt gw txns acc σ v = σ := by
  unfold attempt
  simp only [ht, ha, if_pos hv]

theorem attempt_blocked_eq (σ : LoopState K V Out Err) (v : Nat) (t : Txn K V Out Err)
    (dep : Nat) (ht : txns[v]? = some t)
    (hblocked : view_reads σ.map v t.reads = .error dep) :
    attempt gw txns acc σ v = σ := by
  unfold attempt
  rw [ht]
  cases ha : acc[v]? with
  | none => rfl
  | some a =>
    by_cases hv : v ∈ σ.executed
    · simp [hv]
    · simp [hv, hblocked]

theorem attempt_ok_eq (σ : LoopState K V Out Err) (v : Nat) (t : Txn K V Out Err)
    (a : Accesses K) (vals : List (Option V)) (ht : txns[v]? = some t)
    (ha : acc[v]? = some a) (hv : v ∉ σ.executed)
    (hreads : view_reads σ.map v t.reads = .ok vals) :
    attempt gw txns acc σ v =
      { map := skip_writes (apply_status gw σ.map σ.stop_version v (t.run vals)).1 v
          a.keys_written
        stop_version := (apply_status gw σ.map σ.stop_version v (t.run vals)).2.1
        executed := v :: σ.executed
        outcomes := set_outcome σ.outcomes v
          (apply_status gw σ.map σ.stop_version v (t.run vals)).2.2 } := by
  unfold attempt
  simp only [ht, ha, if_neg hv, hreads]

theorem seq_state_succ (gw : Out → List (K × V)) (txns : List (Txn K V Out Err)) (v : Nat) :
    seq_state gw txns (v + 1) = apply_writes (seq_state gw txns v) (seq_writes gw txns v) :=
  rfl

theorem seq_state_succ_key (gw : Out → List (K × V)) (txns : List (Txn K V Out Err))
    (v : Nat) (key : K) :
    seq_state gw txns (v + 1) key =
      match last_write (seq_writes gw txns v) key with
      | some x => some x
      | none => seq_state gw txns v key := by
  rw [seq_state_succ]
  exact apply_writes_eq _ _ _

theorem seq_status_eq_run (v : Nat) (t : Txn K V Out Err) (vals : List (Option V))
    (ht : txns[v]? = some t) (hvals : vals = t.reads.map (seq_state gw txns v)) :
    seq_status gw txns v = some (t.run vals) := by
  unfold seq_status
  rw [ht, Option.map_some', hvals]

theorem seq_writes_eq_run (v : Nat) (t : Txn K V Out Err) (vals : List (Option V))
    (ht : txns[v]? = some t) (hvals : vals = t.reads.map (seq_state gw txns v)) :
    seq_writes gw txns v =
      match t.run vals with
      | .Success out => gw out
      | .SkipRest out => gw out
      | .Abort _ => [] := by
  unfold seq_writes
  rw [ht, hvals]

theorem predicted_key_iff (v : Nat) (a : Accesses K) (ha : acc[v]? = some a) (key : K) :
    predicted_key acc key v ↔ key ∈ a.keys_written := by
  constructor
  · rintro ⟨a2, ha2, h⟩
    rw [ha] at ha2
    cases ha2
    exact h
  · intro h
    exact ⟨a, ha, h⟩

theorem seq_writes_not_predicted (hcorr : InferCorrect gw txns acc)
    (hlen : acc.length = txns.length) (key : K) (u : Nat)
    (hnp : ¬ predicted_key acc key u) :
    last_write (seq_writes gw txns u) key = none := by
  cases htu : txns[u]? with
  | none =>
    have hsw : seq_writes gw txns u = [] := by
      simp only [seq_writes, htu]
    rw [hsw]
    rfl
  | some t =>
    have hu : u < txns.length := by
      have := List.getElem?_eq_some.mp htu
      exact this.1
    have ha : acc[u]? = some acc[u] := List.getElem?_eq_getElem (by omega)
    have hsw := seq_writes_eq_run u t
      (t.reads.map (seq_state gw txns u)) htu rfl
    rw [hsw]
    cases hrun : t.run (t.reads.map (seq_state gw txns u)) with
    | Success out =>
      cases hl : last_write (gw out) key with
      | none => rfl
      | some x =>
        exfalso
        have hmem := last_write_mem hl
        rw [List.mem_map] at hmem
        obtain ⟨kv, hkv, hkey⟩ := hmem
        refine hnp ⟨acc[u], ha, ?_⟩
        rw [← hkey]
        exact hcorr u t acc[u] htu ha _ out (Or.inl hrun) kv hkv
    | SkipRest out =>
      cases hl : last_write (gw out) key with
      | none => rfl
      | some x =>
        exfalso
        have hmem := last_write_mem hl
        rw [List.mem_map] at hmem
        obtain ⟨kv, hkv, hkey⟩ := hmem
        refine hnp ⟨acc[u], ha, ?_⟩
        rw [← hkey]
        exact hcorr u t acc[u] htu ha _ out (Or.inr hrun) kv hkv
    | Abort e => rfl

theorem read_from_succ (m : MVHashMap K V) (key : K) (u : Nat) :
    m.read_from key (u + 1) =
      match m.cells key u with
      | none => m.read_from key u
      | some .Skipped => m.read_from key u
      | some .Unset => .error (some u)
      | some (.Value x) => .ok x := rfl

theorem read_from_seq {σ : LoopState K V Out Err} (hinv : Inv gw txns acc σ)
    (hcorr : InferCorrect gw txns acc) (key : K) : ∀ u,
    (∀ x, σ.map.read_from key u = .ok x → seq_state gw txns u key = some x) ∧
    (σ.map.read_from key u = .error none → seq_state gw txns u key = none) := by
  intro u
  induction u with
  | zero =>
    constructor
    · intro x h
      cases h
    · intro _
      rfl
  | succ u ih =>
    cases hc : σ.map.cells key u with
    | none =>
      have hnp : ¬ predicted_key acc key u := (hinv.cell_none key u).mp hc
      have hw : last_write (seq_writes gw txns u) key = none :=
        seq_writes_not_predicted hcorr hinv.len_eq key u hnp
      have hred : σ.map.read_from key (u + 1) = σ.map.read_from key u := by
        rw [read_from_succ, hc]
      constructor
      · intro x h
        rw [hred] at h
        rw [seq_state_succ_key, hw]
        exact ih.1 x h
      · intro h
        rw [hred] at h
        rw [seq_state_succ_key, hw]
        exact ih.2 h
    | some c =>
      cases c with
      | Unset =>
        have hred : σ.map.read_from key (u + 1) = .error (some u) := by
          rw [read_from_succ, hc]
        constructor
        · intro x h
          rw [hred] at h
          cases h
        · intro h
          rw [hred] at h
          simp at h
      | Skipped =>
        have hex : u ∈ σ.executed := by
          by_contra hnex
          rcases hinv.cell_unexec key u hnex with h0 | h0 <;> rw [hc] at h0 <;> simp at h0
        have hcell : cell_of_seq gw txns key u = .Skipped := by
          rcases hinv.cell_exec key u hex with h1 | h1
          · rw [hc] at h1; cases h1
          · rw [hc] at h1
            injection h1 with h2
            exact h2.symm
        have hw : last_write (seq_writes gw txns u) key = none := by
          unfold cell_of_seq at hcell
          cases hl : last_write (seq_writes gw txns u) key with
          | none => rfl
          | some x => rw [hl] at hcell; cases hcell
        have hred : σ.map.read_from key (u + 1) = σ.map.read_from key u := by
          rw [read_from_succ, hc]
        constructor
        · intro x h
          rw [hred] at h
          rw [seq_state_succ_key, hw]
          exact ih.1 x h
        · intro h
          rw [hred] at h
          rw [seq_state_succ_key, hw]
          exact ih.2 h
      | Value x0 =>
        have hex : u ∈ σ.executed := by
          by_contra hnex
          rcases hinv.cell_unexec key u hnex with h0 | h0 <;> rw [hc] at h0 <;> simp at h0
        have hcell : cell_of_seq gw txns key u = .Value x0 := by
          rcases hinv.cell_exec key u hex with h1 | h1
          · rw [hc] at h1; cases h1
          · rw [hc] at h1
            injection h1 with h2
            exact h2.symm
        have hw : last_write (seq_writes gw txns u) key = some x0 := by
          unfold cell_of_seq at hcell
          cases hl : last_write (seq_writes gw txns u) key with
          | none => rw [hl] at hcell; cases hcell
          | some y =>
            rw [hl] at hcell
            injection hcell with h2
            rw [h2]
        have hred : σ.map.read_from key (u + 1) = .ok x0 := by
          rw [read_from_succ, hc]
        constructor
        · intro x h
          rw [hred] at h
          injection h with h2
          rw [seq_state_succ_key, hw, ← h2]
        · intro h
          rw [hred] at h
          cases h

theorem view_reads_seq {σ : LoopState K V Out Err} (hinv : Inv gw txns acc σ)
    (hcorr : InferCorrect gw txns acc) (v : Nat) :
    ∀ (keys : List K) (vals : List (Option V)), view_reads σ.map v keys = .ok vals →
    vals = keys.map (seq_state gw txns v) := by
  intro keys
  induction keys with
  | nil =>
    intro vals h
    cases h
    rfl
  | cons k rest ih =>
    intro vals h
    unfold view_reads at h
    cases hr : σ.map.read k v with
    | ok x =>
      rw [hr] at h
      cases hrest : view_reads σ.map v rest with
      | ok vs =>
        rw [hrest] at h
        cases h
        have hx : seq_state gw txns v k = some x := (read_from_seq hinv hcorr k v).1 x hr
        rw [List.map_cons, ← ih vs hrest, hx]
      | error d => rw [hrest] at h; cases h
    | error o =>
      cases o with
      | none =>
        rw [hr] at h
        cases hrest : view_reads σ.map v rest with
        | ok vs =>
          rw [hrest] at h
          cases h
          have hx : seq_state gw txns v k = none := (read_from_seq hinv hcorr k v).2 hr
          rw [List.map_cons, ← ih vs hrest, hx]
        | error d => rw [hrest] at h; cases h
      | some dep => rw [hr] at h; cases h

theorem stop_of_cons (gw : Out → List (K × V)) (txns : List (Txn K V Out Err))
    (v : Nat) (ex : List Nat) :
    stop_of gw txns (v :: ex) =
      if is_stopping (seq_status gw txns v) then min (v + 1) (stop_of gw txns ex)
      else stop_of gw txns ex := rfl

theorem inv_step (hcorr : InferCorrect gw txns acc) {σ : LoopState K V Out Err}
    (hinv : Inv gw txns acc σ) (v : Nat) (a : Accesses K) (ha : acc[v]? = some a)
    (hvlt : v < txns.length) (hv : v ∉ σ.executed)
    (m1 : MVHashMap K V) (st : Nat) (r : ExecutionStatus Out (Error Err))
    (hm1cells : ∀ key u, m1.cells key u =
      if u = v then
        (match last_write (seq_writes gw txns v) key with
         | some x => some (.Value x)
         | none => σ.map.cells key u)
      else σ.map.cells key u)
    (hm1dom : ∀ key u, (m1.cells key u = none ↔ σ.map.cells key u = none))
    (hr : some r = (seq_status gw txns v).map lift_status)
    (hst : st = if is_stopping (seq_status gw txns v) then min σ.stop_version (v + 1)
           else σ.stop_version) :
    Inv gw txns acc
      { map := skip_writes m1 v a.keys_written
        stop_version := st
        executed := v :: σ.executed
        outcomes := set_outcome σ.outcomes v r } := by
  refine ⟨hinv.len_eq, ?_, ?_, ?_, ?_, ?_, ?_, ?_, ?_⟩
  · intro u hu
    rcases List.mem_cons.mp hu with rfl | hmem
    · exact hvlt
    · exact hinv.exec_lt u hmem
  · exact List.nodup_cons.mpr ⟨hv, hinv.exec_nodup⟩
  · intro u hu
    rcases List.mem_cons.mp hu with rfl | hmem
    · show set_outcome σ.outcomes u r u = _
      unfold set_outcome
      rw [if_pos rfl]
      exact hr
    · have hne : u ≠ v := fun he => hv (he ▸ hmem)
      show set_outcome σ.outcomes v r u = _
      unfold set_outcome
      rw [if_neg hne]
      exact hinv.outcome_exec u hmem
  · intro u hu
    have hne : u ≠ v := fun he => hu (he ▸ List.mem_cons_self v σ.executed)
    have hmem : u ∉ σ.executed := fun hm => hu (List.mem_cons_of_mem _ hm)
    show set_outcome σ.outcomes v r u = none
    unfold set_outcome
    rw [if_neg hne]
    exact hinv.outcome_unexec u hmem
  · intro key u
    show ((skip_writes m1 v a.keys_written).cells key u = none ↔ _)
    rw [skip_writes_domain, hm1dom]
    exact hinv.cell_none key u
  · intro key u hu
    rcases List.mem_cons.mp hu with rfl | hmem
    · show (skip_writes m1 u a.keys_written).cells key u = none ∨ _
      rw [skip_writes_cells_at]
      by_cases hkmem : key ∈ a.keys_written
      · rw [if_pos hkmem]
        have hpred : predicted_key acc key u := (predicted_key_iff u a ha key).mpr hkmem
        have hcells : σ.map.cells key u = some .Unset := by
          rcases hinv.cell_unexec key u hv with h0 | h0
          · exact absurd ((hinv.cell_none key u).mp h0) (not_not_intro hpred)
          · exact h0
        rw [hm1cells key u, if_pos rfl]
        refine Or.inr ?_
        unfold cell_of_seq
        cases hlw : last_write (seq_writes gw txns u) key with
        | none => rw [hcells]
        | some x => rfl
      · rw [if_neg hkmem]
        have hnp : ¬ predicted_key acc key u :=
          fun hp => hkmem ((predicted_key_iff u a ha key).mp hp)
        have hcn : σ.map.cells key u = none := (hinv.cell_none key u).mpr hnp
        have hlw : last_write (seq_writes gw txns u) key = none :=
          seq_writes_not_predicted hcorr hinv.len_eq key u hnp
        rw [hm1cells key u, if_pos rfl, hlw]
        exact Or.inl hcn
    · have hne : u ≠ v := fun he => hv (he ▸ hmem)
      show (skip_writes m1 v a.keys_written).cells key u = none ∨ _
      rw [skip_writes_cells_ne v _ _ _ _ hne, hm1cells key u, if_neg hne]
      exact hinv.cell_exec key u hmem
  · intro key u hu
    have hne : u ≠ v := fun he => hu (he ▸ List.mem_cons_self v σ.executed)
    have hmem : u ∉ σ.executed := fun hm => hu (List.mem_cons_of_mem _ hm)
    show (skip_writes m1 v a.keys_written).cells key u = none ∨ _
    rw [skip_writes_cells_ne v _ _ _ _ hne, hm1cells key u, if_neg hne]
    exact hinv.cell_unexec key u hmem
  · show st = stop_of gw txns (v :: σ.executed)
    rw [hst, stop_of_cons, hinv.stop_eq]
    cases hstp : is_stopping (seq_status gw txns v)
    · simp [hstp]
    · simp [hstp, min_comm]

theorem inv_attempt (hcorr : InferCorrect gw txns acc) {σ : LoopState K V Out Err}
    (hinv : Inv gw txns acc σ) (v : Nat) :
    Inv gw txns acc (attempt gw txns acc σ v) := by
  cases ht : txns[v]? with
  | none => rw [attempt_no_txn σ v ht]; exact hinv
  | some t =>
    cases ha : acc[v]? with
    | none => rw [attempt_no_acc σ v t ht ha]; exact hinv
    | some a =>
      by_cases hv : v ∈ σ.executed
      · rw [attempt_executed_eq σ v t a ht ha hv]; exact hinv
      · cases hreads : view_reads σ.map v t.reads with
        | error d => rw [attempt_blocked_eq σ v t d ht hreads]; exact hinv
        | ok vals =>
          rw [attempt_ok_eq σ v t a vals ht ha hv hreads]
          have hvals : vals = t.reads.map (seq_state gw txns v) :=
            view_reads_seq hinv hcorr v t.reads vals hreads
          have hstat : seq_status gw txns v = some (t.run vals) :=
            seq_status_eq_run v t vals ht hvals
          have hsw := seq_writes_eq_run v t vals ht hvals
          have hvlt : v < txns.length := (List.getElem?_eq_some.mp ht).1
          cases hrun : t.run vals with
          | Success out =>
            rw [hrun] at hstat hsw
            have hpred : ∀ kv ∈ gw out, σ.map.cells kv.1 v ≠ none := by
              intro kv hkv hnone
              exact ((hinv.cell_none kv.1 v).mp hnone)
                ⟨a, ha, hcorr v t a ht ha vals out (Or.inl hrun) kv hkv⟩
            have hc2 : (commit_writes σ.map v (gw out)).2 = true :=
              commit_true_of_some v (gw out) σ.map hpred
            have hcsplit : commit_writes σ.map v (gw out) =
                ((commit_writes σ.map v (gw out)).1, true) := by
              rw [← hc2]
            rw [apply_status_success]
            simp only [hc2, if_true]
            refine inv_step hcorr hinv v a ha hvlt hv _ _ _ ?_ ?_ ?_ ?_
            · intro key u
              rw [hsw]
              exact commit_cells_of_true v (gw out) σ.map _ hcsplit key u
            · intro key u
              exact commit_domain v (gw out) σ.map key u
            · rw [hstat]; rfl
            · rw [hstat]; rfl
          | SkipRest out =>
            rw [hrun] at hstat hsw
            have hpred : ∀ kv ∈ gw out, σ.map.cells kv.1 v ≠ none := by
              intro kv hkv hnone
              exact ((hinv.cell_none kv.1 v).mp hnone)
                ⟨a, ha, hcorr v t a ht ha vals out (Or.inr hrun) kv hkv⟩
            have hc2 : (commit_writes σ.map v (gw out)).2 = true :=
              commit_true_of_some v (gw out) σ.map hpred
            have hcsplit : commit_writes σ.map v (gw out) =
                ((commit_writes σ.map v (gw out)).1, true) := by
              rw [← hc2]
            rw [apply_status_skiprest]
            simp only [hc2, if_true]
            refine inv_step hcorr hinv v a ha hvlt hv _ _ _ ?_ ?_ ?_ ?_
            · intro key u
              rw [hsw]
              exact commit_cells_of_true v (gw out) σ.map _ hcsplit key u
            · intro key u
              exact commit_domain v (gw out) σ.map key u
            · rw [hstat]; rfl
            · rw [hstat]; rfl
          | Abort e =>
            rw [hrun] at hstat hsw
            rw [apply_status_abort]
            refine inv_step hcorr hinv v a ha hvlt hv _ _ _ ?_ ?_ ?_ ?_
            · intro key u
              rw [hsw]
              split_ifs <;> rfl
            · intro key u
              exact Iff.rfl
            · rw [hstat]; rfl
            · rw [hstat]; rfl

theorem inv_run (hcorr : InferCorrect gw txns acc) :
    ∀ (sched : List Nat) (σ : LoopState K V Out Err), Inv gw txns acc σ →
    Inv gw txns acc (run_schedule gw txns acc σ sched) := by
  intro sched
  induction sched with
  | nil => intro σ h; exact h
  | cons v rest ih => intro σ h; exact ih _ (inv_attempt hcorr h v)

theorem inv_init (hlen : acc.length = txns.length) :
    Inv gw txns acc
      (init_state txns
        (MVHashMap.new_from_parallel (V := V) (path_version_tuples acc)).1 :
        LoopState K V Out Err) := by
  refine ⟨hlen, ?_, ?_, ?_, ?_, ?_, ?_, ?_, ?_⟩
  · intro v hv; cases hv
  · exact List.nodup_nil
  · intro v hv; cases hv
  · intro v _; rfl
  · exact fun key v => celldom_init txns acc key v
  · intro key v hv; cases hv
  · intro key v _
    by_cases hm : (key, v) ∈ path_version_tuples acc
    · refine Or.inr ?_
      show (if (key, v) ∈ path_version_tuples acc then some Cell.Unset else none) =
        some Cell.Unset
      rw [if_pos hm]
    · refine Or.inl ?_
      show (if (key, v) ∈ path_version_tuples acc then some Cell.Unset else none) = none
      rw [if_neg hm]
  · show txns.length = stop_of gw txns []
    rfl

theorem seq_stop_from_ge (gw : Out → List (K × V)) (txns : List (Txn K V Out Err)) :
    ∀ (n v : Nat), v ≤ seq_stop_from gw txns v n := by
  intro n
  induction n with
  | zero => intro v; exact le_rfl
  | succ n ih =>
    intro v
    unfold seq_stop_from
    split_ifs with h
    · omega
    · exact le_trans (by omega) (ih (v + 1))

theorem seq_stop_from_le (gw : Out → List (K × V)) (txns : List (Txn K V Out Err)) :
    ∀ (n v : Nat), seq_stop_from gw txns v n ≤ v + n := by
  intro n
  induction n with
  | zero => intro v; exact le_rfl
  | succ n ih =>
    intro v
    unfold seq_stop_from
    split_ifs with h
    · omega
    · exact le_trans (ih (v + 1)) (by omega)

theorem seq_stop_from_min (gw : Out → List (K × V)) (txns : List (Txn K V Out Err)) :
    ∀ (n v u : Nat), v ≤ u → u < v + n → is_stopping (seq_status gw txns u) →
    seq_stop_from gw txns v n ≤ u + 1 := by
  intro n
  induction n with
  | zero => intro v u h1 h2; omega
  | succ n ih =>
    intro v u h1 h2 htrig
    unfold seq_stop_from
    split_ifs with h
    · omega
    · have hne : v ≠ u := fun he => by rw [he] at h; exact h htrig
      exact ih (v + 1) u (by omega) (by omega) htrig

theorem seq_stop_from_trigger (gw : Out → List (K × V)) (txns : List (Txn K V Out Err)) :
    ∀ (n v : Nat), seq_stop_from gw txns v n < v + n →
    is_stopping (seq_status gw txns (seq_stop_from gw txns v n - 1)) = true ∧
    v + 1 ≤ seq_stop_from gw txns v n := by
  intro n
  induction n with
  | zero =>
    intro v h
    rw [show seq_stop_from gw txns v 0 = v from rfl] at h
    omega
  | succ n ih =>
    intro v h
    by_cases htr : is_stopping (seq_status gw txns v)
    · have hs : seq_stop_from gw txns v (n + 1) = v + 1 := by
        show (if is_stopping (seq_status gw txns v) = true then v + 1
          else seq_stop_from gw txns (v + 1) n) = v + 1
        rw [if_pos htr]
      rw [hs]
      simp only [Nat.add_sub_cancel]
      exact ⟨htr, le_rfl⟩
    · have hs : seq_stop_from gw txns v (n + 1) = seq_stop_from gw txns (v + 1) n := by
        show (if is_stopping (seq_status gw txns v) = true then v + 1
          else seq_stop_from gw txns (v + 1) n) = _
        rw [if_neg htr]
      rw [hs] at h ⊢
      obtain ⟨h1, h2⟩ := ih (v + 1) (by omega)
      exact ⟨h1, by omega⟩

theorem stop_of_le_len (gw : Out → List (K × V)) (txns : List (Txn K V Out Err)) :
    ∀ (ex : List Nat), stop_of gw txns ex ≤ txns.length := by
  intro ex
  induction ex with
  | nil => exact le_rfl
  | cons v rest ih =>
    rw [stop_of_cons]
    split_ifs with h
    · exact le_trans (min_le_right _ _) ih
    · exact ih

theorem stop_of_le_of_mem (gw : Out → List (K × V)) (txns : List (Txn K V Out Err)) :
    ∀ (ex : List Nat) (v : Nat), v ∈ ex → is_stopping (seq_status gw txns v) →
    stop_of gw txns ex ≤ v + 1 := by
  intro ex
  induction ex with
  | nil => intro v hv; cases hv
  | cons u rest ih =>
    intro v hv htrig
    rcases List.mem_cons.mp hv with rfl | hmem
    · rw [stop_of_cons, if_pos htrig]
      exact min_le_left _ _
    · rw [stop_of_cons]
      split_ifs with h
      · exact le_trans (min_le_right _ _) (ih v hmem htrig)
      · exact ih v hmem htrig

theorem le_stop_of (gw : Out → List (K × V)) (txns : List (Txn K V Out Err)) :
    ∀ (ex : List Nat) (k : Nat),
    (∀ u ∈ ex, is_stopping (seq_status gw txns u) → k ≤ u + 1) → k ≤ txns.length →
    k ≤ stop_of gw txns ex := by
  intro ex
  induction ex with
  | nil => intro k _ hk; exact hk
  | cons u rest ih =>
    intro k hall hk
    rw [stop_of_cons]
    split_ifs with h
    · exact le_min (hall u (List.mem_cons_self _ _) h)
        (ih k (fun w hw => hall w (List.mem_cons_of_mem _ hw)) hk)
    · exact ih k (fun w hw => hall w (List.mem_cons_of_mem _ hw)) hk

theorem seq_stop_def (gw : Out → List (K × V)) (txns : List (Txn K V Out Err)) :
    seq_stop gw txns = seq_stop_from gw txns 0 txns.length := rfl

theorem final_stop_eq {σ : LoopState K V Out Err} (hinv : Inv gw txns acc σ)
    (hcomp : Complete σ) : σ.stop_version = seq_stop gw txns := by
  rw [seq_stop_def]
  have h0 : seq_stop_from gw txns 0 txns.length ≤ 0 + txns.length :=
    seq_stop_from_le gw txns txns.length 0
  have hle : seq_stop_from gw txns 0 txns.length ≤ σ.stop_version := by
    rw [hinv.stop_eq]
    refine le_stop_of gw txns σ.executed _ ?_ (by omega)
    intro u hu htrig
    have huN : u < txns.length := hinv.exec_lt u hu
    exact seq_stop_from_min gw txns txns.length 0 u (Nat.zero_le u) (by omega) htrig
  have hge : σ.stop_version ≤ seq_stop_from gw txns 0 txns.length := by
    by_cases hlt : seq_stop_from gw txns 0 txns.length < txns.length
    · obtain ⟨htrig, hone⟩ := seq_stop_from_trigger gw txns txns.length 0 (by omega)
      by_cases hts : seq_stop_from gw txns 0 txns.length - 1 < σ.stop_version
      · have hmem : seq_stop_from gw txns 0 txns.length - 1 ∈ σ.executed := hcomp _ hts
        have h2 := stop_of_le_of_mem gw txns σ.executed _ hmem htrig
        rw [← hinv.stop_eq] at h2
        omega
      · omega
    · rw [hinv.stop_eq]
      have h3 := stop_of_le_len gw txns σ.executed
      omega
  omega

theorem execute_sequential_cons (gw : Out → List (K × V)) (st : K → Option V)
    (t : Txn K V Out Err) (rest : List (Txn K V Out Err)) :
    execute_sequential gw st (t :: rest) =
      match t.run (t.reads.map st) with
      | .Success out => .Success out :: execute_sequential gw (apply_writes st (gw out)) rest
      | .SkipRest out => [.SkipRest out]
      | .Abort e => [.Abort e] := rfl

theorem exec_seq_drop (gw : Out → List (K × V)) (txns : List (Txn K V Out Err)) :
    ∀ (n v : Nat), v + n = txns.length →
    execute_sequential gw (seq_state gw txns v) (txns.drop v) =
      (List.range' v (seq_stop_from gw txns v n - v)).filterMap (seq_status gw txns) := by
  intro n
  induction n with
  | zero =>
    intro v hv
    have hvl : v = txns.length := by omega
    subst hvl
    rw [List.drop_length]
    rw [show seq_stop_from gw txns txns.length 0 = txns.length from rfl]
    simp
    rfl
  | succ n ih =>
    intro v hv
    have hvlt : v < txns.length := by omega
    have hdrop : txns.drop v = txns[v] :: txns.drop (v + 1) := List.drop_eq_getElem_cons hvlt
    have ht : txns[v]? = some txns[v] := List.getElem?_eq_getElem hvlt
    have hstat : seq_status gw txns v =
        some (txns[v].run (txns[v].reads.map (seq_state gw txns v))) :=
      seq_status_eq_run v txns[v] _ ht rfl
    cases hrun : txns[v].run (txns[v].reads.map (seq_state gw txns v)) with
    | Success out =>
      have hlhs : execute_sequential gw (seq_state gw txns v) (txns.drop v) =
          .Success out ::
            execute_sequential gw (apply_writes (seq_state gw txns v) (gw out))
              (txns.drop (v + 1)) := by
        rw [hdrop, execute_sequential_cons, hrun]
      have hsw : seq_writes gw txns v = gw out := by
        rw [@seq_writes_eq_run K V Out Err _ gw txns v txns[v] _ ht rfl, hrun]
      have happ : apply_writes (seq_state gw txns v) (gw out) = seq_state gw txns (v + 1) := by
        rw [seq_state_succ, hsw]
      have htrig : is_stopping (seq_status gw txns v) = false := by
        rw [hstat, hrun]
        rfl
      have hstop : seq_stop_from gw txns v (n + 1) = seq_stop_from gw txns (v + 1) n := by
        show (if is_stopping (seq_status gw txns v) = true then v + 1
          else seq_stop_from gw txns (v + 1) n) = _
        rw [htrig]
        simp
      have hge : v + 1 ≤ seq_stop_from gw txns (v + 1) n := seq_stop_from_ge gw txns n (v + 1)
      rw [hlhs, happ, ih (v + 1) (by omega), hstop]
      have hsub : seq_stop_from gw txns (v + 1) n - v =
          (seq_stop_from gw txns (v + 1) n - (v + 1)) + 1 := by omega
      rw [hsub, List.range'_succ]
      rw [List.filterMap_cons_some (by rw [hstat, hrun] :
        seq_status gw txns v = some (ExecutionStatus.Success out))]
    | SkipRest out =>
      have hlhs : execute_sequential gw (seq_state gw txns v) (txns.drop v) =
          [.SkipRest out] := by
        rw [hdrop, execute_sequential_cons, hrun]
      have htrig : is_stopping (seq_status gw txns v) = true := by
        rw [hstat, hrun]
        rfl
      have hstop : seq_stop_from gw txns v (n + 1) = v + 1 := by
        show (if is_stopping (seq_status gw txns v) = true then v + 1
          else seq_stop_from gw txns (v + 1) n) = v + 1
        rw [htrig]
        simp
      rw [hlhs, hstop]
      rw [show v + 1 - v = 1 from by omega]
      rw [List.range'_succ]
      rw [show List.range' (v + 1) 0 = [] from rfl]
      rw [List.filterMap_cons_some (by rw [hstat, hrun] :
        seq_status gw txns v = some (ExecutionStatus.SkipRest out))]
      rfl
    | Abort e =>
      have hlhs : execute_sequential gw (seq_state gw txns v) (txns.drop v) =
          [.Abort e] := by
        rw [hdrop, execute_sequential_cons, hrun]
      have htrig : is_stopping (seq_status gw txns v) = true := by
        rw [hstat, hrun]
        rfl
      have hstop : seq_stop_from gw txns v (n + 1) = v + 1 := by
        show (if is_stopping (seq_status gw txns v) = true then v + 1
          else seq_stop_from gw txns (v + 1) n) = v + 1
        rw [htrig]
        simp
      rw [hlhs, hstop]
      rw [show v + 1 - v = 1 from by omega]
      rw [List.range'_succ]
      rw [show List.range' (v + 1) 0 = [] from rfl]
      rw [List.filterMap_cons_some (by rw [hstat, hrun] :
        seq_status gw txns v = some (ExecutionStatus.Abort e))]
      rfl

theorem exec_seq_eq (gw : Out → List (K × V)) (txns : List (Txn K V Out Err)) :
    execute_sequential gw (fun _ => none) txns =
      (List.range (seq_stop gw txns)).filterMap (seq_status gw txns) := by
  have h := exec_seq_drop gw txns txns.length 0 (by omega)
  rw [List.drop_zero] at h
  rw [seq_stop_def, List.range_eq_range']
  rw [show seq_stop_from gw txns 0 txns.length =
    seq_stop_from gw txns 0 txns.length - 0 from by omega]
  exact h

theorem collect_eq_filterMap {out : Nat → Option (ExecutionStatus Out (Error Err))}
    (f : Nat → Option (ExecutionStatus Out (Error Err))) :
    ∀ (n i : Nat), (∀ u, i ≤ u → u < i + n → out u = f u ∧ (f u).isSome) →
    collect_from out i n = some ((List.range' i n).filterMap f) := by
  intro n
  induction n with
  | zero => intro i _; rfl
  | succ n ih =>
    intro i h
    obtain ⟨hout, hsome⟩ := h i le_rfl (by omega)
    obtain ⟨b, hb⟩ := Option.isSome_iff_exists.mp hsome
    have hl := ih (i + 1) (fun u hu1 hu2 => h u (by omega) (by omega))
    unfold collect_from
    rw [hout, hb, hl]
    rw [List.range'_succ]
    rw [List.filterMap_cons_some hb]

theorem parallel_matches_sequential (infer : Txn K V Out Err → Option (Accesses K))
    (schedule : List Nat)
    (hne : txns ≠ [])
    (hacc : infer_all infer txns = some acc)
    (hcorr : InferCorrect gw txns acc)
    (hmax : max_dependency_level (path_version_tuples acc) ≠ 0)
    (hcomp : Complete (run_schedule gw txns acc
      (init_state txns
        (MVHashMap.new_from_parallel (V := V) (path_version_tuples acc)).1)
      schedule)) :
    execute_transactions_parallel infer gw txns schedule =
      some (extract_outputs
        ((execute_sequential gw (fun _ => none) txns).map lift_status)) := by
  have hlen : acc.length = txns.length := infer_all_length hacc
  have hinv : Inv gw txns acc
      (run_schedule gw txns acc
        (init_state txns
          (MVHashMap.new_from_parallel (V := V) (path_version_tuples acc)).1)
        schedule) :=
    inv_run hcorr schedule _ (inv_init hlen)
  have hstop := final_stop_eq hinv hcomp
  have hslots : ∀ u, 0 ≤ u → u < 0 + seq_stop gw txns →
      (run_schedule gw txns acc
        (init_state txns
          (MVHashMap.new_from_parallel (V := V) (path_version_tuples acc)).1)
        schedule).outcomes u = (seq_status gw txns u).map lift_status ∧
      ((seq_status gw txns u).map lift_status).isSome := by
    intro u _ hu
    have hu2 : u < (run_schedule gw txns acc
        (init_state txns
          (MVHashMap.new_from_parallel (V := V) (path_version_tuples acc)).1)
        schedule).stop_version := by
      rw [hstop]
      omega
    have hex := hcomp u hu2
    refine ⟨hinv.outcome_exec u hex, ?_⟩
    have huN : u < txns.length := hinv.exec_lt u hex
    simp [seq_status, List.getElem?_eq_getElem huN]
  unfold execute_transactions_parallel
  rw [if_neg (by simpa using hne)]
  simp only [hacc]
  rw [if_neg (show ¬ ((MVHashMap.new_from_parallel (V := V)
    (path_version_tuples acc)).2 = 0) from hmax)]
  rw [hstop]
  unfold get_all_results
  rw [collect_eq_filterMap (fun u => (seq_status gw txns u).map lift_status)
    (seq_stop gw txns) 0 hslots]
  rw [Option.map_some']
  have hlist : (List.range' 0 (seq_stop gw txns)).filterMap
      (fun u => (seq_status gw txns u).map lift_status) =
      (execute_sequential gw (fun _ => none) txns).map lift_status := by
    rw [exec_seq_eq, List.range_eq_range']
    exact (List.map_filterMap _ _ _).symm
  rw [hlist]

end Refinement

section ClaimOne

/-- C1: for every non-empty block, every inferencer whose predicted write
sets contain all actual writes, and every schedule of attempts (covering
every worker count and every re-queue order) under which the run completes,
execute_transactions_parallel returns exactly the result of the strictly
sequential execution of the same transactions up to the stop version: the
per-version outputs do not depend on the schedule. -/
theorem claim_c1 [DecidableEq K] (infer : Txn K V Out Err → Option (Accesses K))
    (gw : Out → List (K × V)) (txns : List (Txn K V Out Err)) (schedule : List Nat)
    (acc : List (Accesses K))
    (hne : txns ≠ [])
    (hacc : infer_all infer txns = some acc)
    (hcorr : InferCorrect gw txns acc)
    (hmax : max_dependency_level (path_version_tuples acc) ≠ 0)
    (hcomp : Complete (run_schedule gw txns acc
      (init_state txns
        (MVHashMap.new_from_parallel (V := V) (path_version_tuples acc)).1)
      schedule)) :
    execute_transactions_parallel infer gw txns schedule =
      some (extract_outputs
        ((execute_sequential gw (fun _ => none) txns).map lift_status)) :=
  parallel_matches_sequential infer schedule hne hacc hcorr hmax hcomp

/-- C1 witness: the two-transaction chain block (a root writer of key 0 and
a reader of key 0), a schedule where the reader is first blocked and then
re-queued, and a correct inferencer; the parallel result equals the
sequential one. -/
theorem claim_c1_witness :
    infer_all infer_roots wtxns_chain = some wacc_roots ∧
    execute_transactions_parallel infer_roots gw_ten wtxns_chain [1, 0, 1] =
      some (extract_outputs
        ((execute_sequential gw_ten (fun _ => none) wtxns_chain).map lift_status)) := by
  have hcorr : InferCorrect gw_ten wtxns_chain wacc_roots := by
    intro v t a ht ha vals out hrun kv hkv
    match v with
    | 0 =>
      have ht2 : t = txn_const [] (.Success 10) := by
        rw [show wtxns_chain[0]? = some (txn_const [] (.Success 10)) from rfl] at ht
        exact (Option.some.inj ht).symm
      have ha2 : a = ⟨[], [0]⟩ := by
        rw [show wacc_roots[0]? = some (⟨[], [0]⟩ : Accesses Nat) from rfl] at ha
        exact (Option.some.inj ha).symm
      subst ht2
      subst ha2
      rcases hrun with h | h
      · have hout : out = 10 := by
          have h2 : (ExecutionStatus.Success 10 : ExecutionStatus Nat Nat) =
              .Success out := h
          simpa using h2.symm
        subst hout
        have : kv = (0, 99) := by
          simpa [gw_ten] using hkv
        subst this
        simp
      · exact absurd h (by simp [txn_const])
    | 1 =>
      have ht2 : t = txn_read_zero := by
        rw [show wtxns_chain[1]? = some txn_read_zero from rfl] at ht
        exact (Option.some.inj ht).symm
      subst ht2
      rcases hrun with h | h
      · have hout : out = 100 + ((vals.headD none).getD 0) := by
          have h2 : (ExecutionStatus.Success (100 + ((vals.headD none).getD 0)) :
              ExecutionStatus Nat Nat) = .Success out := h
          simpa using h2.symm
        exfalso
        have hne10 : ¬ (out = 10) := by omega
        simp [gw_ten, hne10] at hkv
      · exact absurd h (by simp [txn_read_zero])
    | n + 2 =>
      rw [show wtxns_chain[n + 2]? = none from rfl] at ht
      cases ht
  have hcomp : Complete (run_schedule gw_ten wtxns_chain wacc_roots
      (init_state wtxns_chain
        (MVHashMap.new_from_parallel (V := Nat) (path_version_tuples wacc_roots)).1)
      [1, 0, 1]) := by
    intro v hv
    have hs : (run_schedule gw_ten wtxns_chain wacc_roots
        (init_state wtxns_chain
          (MVHashMap.new_from_parallel (V := Nat) (path_version_tuples wacc_roots)).1)
        [1, 0, 1]).stop_version = 2 := rfl
    have he : (run_schedule gw_ten wtxns_chain wacc_roots
        (init_state wtxns_chain
          (MVHashMap.new_from_parallel (V := Nat) (path_version_tuples wacc_roots)).1)
        [1, 0, 1]).executed = [1, 0] := rfl
    rw [hs] at hv
    rw [he]
    interval_cases v <;> simp
  exact ⟨rfl,
    claim_c1 infer_roots gw_ten wtxns_chain [1, 0, 1] wacc_roots
      (by simp [wtxns_chain]) rfl hcorr (by decide) hcomp⟩

end ClaimOne

section ClaimFour

theorem extract_ok_of_no_abort :
    ∀ (l : List (ExecutionStatus Out (Error Err))),
    (∀ s ∈ l, ∀ e, s ≠ .Abort e) →
    ∃ outs, extract_outputs l = .ok outs ∧ outs.length = l.length := by
  intro l
  induction l with
  | nil => intro _; exact ⟨[], rfl, rfl⟩
  | cons s rest ih =>
    intro h
    obtain ⟨outs, hex, hlen⟩ := ih (fun s2 hs2 e => h s2 (List.mem_cons_of_mem _ hs2) e)
    cases s with
    | Success o =>
      refine ⟨o :: outs, ?_, by simp [hlen]⟩
      unfold extract_outputs
      rw [hex]
    | SkipRest o =>
      refine ⟨o :: outs, ?_, by simp [hlen]⟩
      unfold extract_outputs
      rw [hex]
    | Abort e => exact absurd rfl (h _ (List.mem_cons_self _ _) e)

theorem filterMap_length_of_some {α β : Type} :
    ∀ (l : List α) (f : α → Option β),
    (∀ a ∈ l, (f a).isSome) → (l.filterMap f).length = l.length := by
  intro l
  induction l with
  | nil => intro f _; rfl
  | cons a rest ih =>
    intro f h
    obtain ⟨b, hb⟩ := Option.isSome_iff_exists.mp (h a (List.mem_cons_self _ _))
    rw [List.filterMap_cons_some hb]
    simp [ih f (fun x hx => h x (List.mem_cons_of_mem _ hx))]

/-- C4 (amended): when the execution of version k returns SkipRest(out) and
its writes all commit, the worker lowers the stop version to
min(current, k + 1) and records SkipRest(out) in slot k; when some write
fails to commit it records Abort(UnestimatedWrite) and leaves the stop
version unchanged.  The returned vector has length exactly k + 1 when k is
the first version at which the sequential execution stops; as originally
stated (length k + 1 for every committed SkipRest) the claim fails when a
smaller version also stops the block, see the counterexample. -/
theorem claim_c4 [DecidableEq K] :
    (∀ (gw : Out → List (K × V)) (txns : List (Txn K V Out Err))
       (acc : List (Accesses K)) (σ : LoopState K V Out Err) (k : Nat)
       (t : Txn K V Out Err) (a : Accesses K) (out : Out) (vals : List (Option V)),
       txns[k]? = some t → acc[k]? = some a → k ∉ σ.executed →
       view_reads σ.map k t.reads = .ok vals → t.run vals = .SkipRest out →
       ((commit_writes σ.map k (gw out)).2 = true →
         (attempt gw txns acc σ k).stop_version = min σ.stop_version (k + 1) ∧
         (attempt gw txns acc σ k).outcomes k = some (.SkipRest out)) ∧
       ((commit_writes σ.map k (gw out)).2 = false →
         (attempt gw txns acc σ k).stop_version = σ.stop_version ∧
         (attempt gw txns acc σ k).outcomes k = some (.Abort .UnestimatedWrite))) ∧
    (∀ (infer : Txn K V Out Err → Option (Accesses K)) (gw : Out → List (K × V))
       (txns : List (Txn K V Out Err)) (schedule : List Nat)
       (acc : List (Accesses K)) (k : Nat) (out : Out),
       txns ≠ [] → infer_all infer txns = some acc → InferCorrect gw txns acc →
       max_dependency_level (path_version_tuples acc) ≠ 0 →
       Complete (run_schedule gw txns acc
         (init_state txns
           (MVHashMap.new_from_parallel (V := V) (path_version_tuples acc)).1)
         schedule) →
       seq_status gw txns k = some (.SkipRest out) →
       (∀ u, u < k → ∃ o, seq_status gw txns u = some (.Success o)) →
       ∃ outs, execute_transactions_parallel infer gw txns schedule =
           some (.ok outs) ∧ outs.length = k + 1) := by
  constructor
  · intro gw txns acc σ k t a out vals ht ha hv hok hrun
    constructor
    · intro hc
      unfold attempt
      simp [ht, ha, hv, hok, hrun, hc, set_outcome, apply_status]
    · intro hc
      unfold attempt
      simp [ht, ha, hv, hok, hrun, hc, set_outcome, apply_status]
  · intro infer gw txns schedule acc k out hne hacc hcorr hmax hcomp hk hfirst
    have hkN : k < txns.length := by
      obtain ⟨t, ht, -⟩ := Option.map_eq_some'.mp hk
      exact (List.getElem?_eq_some.mp ht).1
    have htrigk : is_stopping (seq_status gw txns k) = true := by
      rw [hk]
      rfl
    have hupper : seq_stop_from gw txns 0 txns.length ≤ k + 1 :=
      seq_stop_from_min gw txns txns.length 0 k (Nat.zero_le k) (by omega) htrigk
    have hlower : k + 1 ≤ seq_stop_from gw txns 0 txns.length := by
      by_contra hcon
      push_neg at hcon
      obtain ⟨htrig, hone⟩ := seq_stop_from_trigger gw txns txns.length 0 (by omega)
      obtain ⟨o, ho⟩ := hfirst (seq_stop_from gw txns 0 txns.length - 1) (by omega)
      rw [ho] at htrig
      simp [is_stopping] at htrig
    have hstop : seq_stop gw txns = k + 1 := by
      rw [seq_stop_def]
      omega
    have hsome : ∀ u ∈ List.range (k + 1), (seq_status gw txns u).isSome := by
      intro u hu
      rw [List.mem_range] at hu
      rcases Nat.lt_succ_iff_lt_or_eq.mp hu with h | h
      · obtain ⟨o, ho⟩ := hfirst u h
        rw [ho]
        rfl
      · subst h
        rw [hk]
        rfl
    have hnoabort : ∀ s ∈ ((List.range (k + 1)).filterMap
        (seq_status gw txns)).map lift_status, ∀ e, s ≠ .Abort e := by
      intro s hs e
      rw [List.mem_map] at hs
      obtain ⟨s0, hs0, rfl⟩ := hs
      rw [List.mem_filterMap] at hs0
      obtain ⟨u, hu, hsu⟩ := hs0
      rw [List.mem_range] at hu
      rcases Nat.lt_succ_iff_lt_or_eq.mp hu with h | h
      · obtain ⟨o, ho⟩ := hfirst u h
        rw [ho] at hsu
        cases hsu
        simp [lift_status]
      · subst h
        rw [hk] at hsu
        cases hsu
        simp [lift_status]
    rw [parallel_matches_sequential infer schedule hne hacc hcorr hmax hcomp]
    rw [exec_seq_eq, hstop]
    obtain ⟨outs, hex, hlen2⟩ := extract_ok_of_no_abort _ hnoabort
    refine ⟨outs, ?_, ?_⟩
    · rw [hex]
    · rw [hlen2, List.length_map, filterMap_length_of_some _ _ hsome, List.length_range]

/-- C4 witness: the committed SkipRest at version 0 records its outcome and
lowers the stop version, and for the one-transaction SkipRest block the
returned vector has length exactly 1. -/
theorem claim_c4_witness :
    ((attempt gw_none wtxns_skip2 wacc_two (wstate wtxns_skip2 wacc_two) 0).outcomes 0 =
       some (.SkipRest 20) ∧
     (attempt gw_none wtxns_skip2 wacc_two (wstate wtxns_skip2 wacc_two) 0).stop_version =
       min 2 1) ∧
    (∃ outs, execute_transactions_parallel infer_zero gw_none wtxns_skip1 [0] =
        some (.ok outs) ∧ outs.length = 0 + 1) := by
  have hcorr : InferCorrect gw_none wtxns_skip1 wacc_one := by
    intro v t a ht ha vals out hrun kv hkv
    exact absurd hkv (by simp [gw_none])
  have hcomp : Complete (run_schedule gw_none wtxns_skip1 wacc_one
      (init_state wtxns_skip1
        (MVHashMap.new_from_parallel (V := Nat) (path_version_tuples wacc_one)).1)
      [0]) := by
    intro v hv
    have hs : (run_schedule gw_none wtxns_skip1 wacc_one
        (init_state wtxns_skip1
          (MVHashMap.new_from_parallel (V := Nat) (path_version_tuples wacc_one)).1)
        [0]).stop_version = 1 := rfl
    have he : (run_schedule gw_none wtxns_skip1 wacc_one
        (init_state wtxns_skip1
          (MVHashMap.new_from_parallel (V := Nat) (path_version_tuples wacc_one)).1)
        [0]).executed = [0] := rfl
    rw [hs] at hv
    rw [he]
    interval_cases v
    simp
  constructor
  · have h := (claim_c4.1 gw_none wtxns_skip2 wacc_two (wstate wtxns_skip2 wacc_two) 0
      (txn_const [] (.SkipRest 20)) ⟨[], [0]⟩ 20 [] rfl rfl
      (by simp [wstate, init_state]) rfl rfl).1 rfl
    exact ⟨h.2, h.1⟩
  · exact claim_c4.2 infer_zero gw_none wtxns_skip1 [0] wacc_one 0 20
      (by simp [wtxns_skip1]) rfl hcorr (by decide) hcomp rfl (fun u hu => by omega)

end ClaimFour

end ParallelExec
